import Mathlib

/-!
Verification of the `ai-monster-hunter` grid-game core against its specification.

The repository contains several near-duplicate variants of one game.  The two
variants named by the claims are embedded here:

* namespace `MH`  — `monster_hunt.py`  (BFS search, predicted-facing attack policy,
  `ensure_weaker_monster`, single-candidate planning);
* namespace `AS1` — `AStar1.py` (A* search avoiding blocked and dangerous cells,
  fall-through planning over all candidates).

Positions are pairs of integers `(row, col)`, exactly as the Python tuples.
Python dicts are embedded as insertion-ordered association lists; Python's
`random` stream is a parameter where it matters.  All definitions are
executable; counterexamples are checked by kernel evaluation.
-/

/-- Grid position `(row, col)`, as the Python `(r, c)` int tuples. -/
abbrev Pos := Int × Int

/-- The four cardinal directions (class `Dir` / the `NORTH..EAST` constants). -/
inductive Dir
  | N | S | W | E
deriving DecidableEq, Repr

/-- `Dir.all()` — the fixed enumeration order `[N, S, W, E]`. -/
def allDirs : List Dir := [Dir.N, Dir.S, Dir.W, Dir.E]

/-- `Dir.vec(self)` — the `(dr, dc)` unit vector of a direction. -/
def Dir.vec : Dir → Int × Int
  | Dir.N => (-1, 0)
  | Dir.S => (1, 0)
  | Dir.W => (0, -1)
  | Dir.E => (0, 1)

/-- Vector addition of a position and a direction vector: `(r + dr, c + dc)`. -/
def padd (p : Pos) (v : Int × Int) : Pos := (p.1 + v.1, p.2 + v.2)

/-- Bounds check `0 <= r < R and 0 <= c < C` used throughout the sources. -/
def inB (R C : Int) (p : Pos) : Bool :=
  decide (0 ≤ p.1) && decide (p.1 < R) && decide (0 ≤ p.2) && decide (p.2 < C)

/-- A cell is `ok` for a search when it is in bounds and not in the forbidden set
(the obstacle set passed to the search: `env.blocked()` for BFS, blocked plus
dangerous cells for A*). -/
def okCell (R C : Int) (forb : List Pos) (p : Pos) : Bool :=
  inB R C p && !(forb.contains p)

/-- Manhattan distance `abs(r1 - r2) + abs(c1 - c2)` (used for target ranking and
as the A* heuristic `heuristic` / `_h`). -/
def mdist (a b : Pos) : Nat := (a.1 - b.1).natAbs + (a.2 - b.2).natAbs

/-- Applying a list of unit moves to a position. -/
def applyPath (p : Pos) : List Dir → Pos
  | [] => p
  | d :: ds => applyPath (padd p d.vec) ds

/-- A move list is valid from `p` when every cell it enters (all cells after `p`)
is in bounds and non-forbidden. -/
def pathOk (R C : Int) (forb : List Pos) (p : Pos) : List Dir → Bool
  | [] => true
  | d :: ds => okCell R C forb (padd p d.vec) && pathOk R C forb (padd p d.vec) ds

/-- `b` is reachable from `a` in exactly `n` unit moves through in-bounds
non-forbidden cells (the start cell itself is exempt, as in both searches). -/
def ReachOk (R C : Int) (forb : List Pos) (a b : Pos) (n : Nat) : Prop :=
  ∃ ds : List Dir, ds.length = n ∧ pathOk R C forb a ds = true ∧ applyPath a ds = b

/-- `n` is the true 4-connected graph distance from `a` to `b`. -/
def IsShortest (R C : Int) (forb : List Pos) (a b : Pos) (n : Nat) : Prop :=
  ReachOk R C forb a b n ∧ ∀ m, ReachOk R C forb a b m → n ≤ m

/-- `b` is unreachable from `a` through in-bounds non-forbidden cells. -/
def Unreach (R C : Int) (forb : List Pos) (a b : Pos) : Prop :=
  ∀ n, ¬ ReachOk R C forb a b n

/-! ### BFS (`Agent.bfs` in `monster_hunt.py`)

The Python deque holds `(r, c, path)` triples; `visited` is a set filled at
enqueue time.  The no-op `if 0 <= nr < R <= env.R ...: pass` line of the source
is dropped (it has no effect).  The loop is embedded with explicit fuel; `bfs`
runs it with fuel `R*C + 1`, which is proved sufficient below. -/

/-- A queue entry: position plus the move list that reached it. -/
abbrev BEntry := Pos × List Dir

/-- One expansion of a popped BFS node over the direction list (the inner
`for d in Dir.all()` loop): each acceptable neighbour is appended to the queue
and added to `visited` immediately. -/
def bexpand (R C : Int) (forb : List Pos) (p : Pos) (path : List Dir) :
    List Dir → List BEntry → List Pos → List BEntry × List Pos
  | [], q, visited => (q, visited)
  | d :: ds, q, visited =>
    let np := padd p d.vec
    if inB R C np && !(visited.contains np) && !(forb.contains np) then
      bexpand R C forb p path ds (q ++ [(np, path ++ [d])]) (np :: visited)
    else
      bexpand R C forb p path ds q visited

/-- The BFS main loop (`while q:`), with fuel counting loop iterations. -/
def bfsAux (R C : Int) (forb : List Pos) (goal : Pos) :
    Nat → List BEntry → List Pos → List Dir
  | 0, _, _ => []
  | _ + 1, [], _ => []
  | fuel + 1, (p, path) :: rest, visited =>
    if p = goal then path
    else
      let s := bexpand R C forb p path allDirs rest visited
      bfsAux R C forb goal fuel s.1 s.2

/-- `Agent.bfs(env, goal)` generalised over the obstacle set: start from
`(self.r, self.c)` with `visited = {start}` and queue `[(start, [])]`;
return `[]` when the queue empties. -/
def bfs (R C : Int) (forb : List Pos) (start goal : Pos) : List Dir :=
  bfsAux R C forb goal (R.toNat * C.toNat + 1) [(start, [])] [start]

/-! ### Shared game entities -/

/-- `Monster`: position, level, facing and the per-step rotation counter. -/
structure Monster where
  r : Int
  c : Int
  level : Nat
  facing : Dir
  turns_seen : Nat
deriving DecidableEq, Repr

/-- One clockwise step in the fixed cycle `[N, E, S, W]`
(`CW[(CW.index(facing) + 1) % 4]`). -/
def cwNext : Dir → Dir
  | Dir.N => Dir.E
  | Dir.E => Dir.S
  | Dir.S => Dir.W
  | Dir.W => Dir.N

/-- `Monster.rotate_if_needed`: increment `turns_seen`, rotate clockwise when the
new count is even. -/
def rotate_if_needed (m : Monster) : Monster :=
  let t := m.turns_seen + 1
  if t % 2 = 0 then { m with turns_seen := t, facing := cwNext m.facing }
  else { m with turns_seen := t }

/-- The three intents `plan_action` can return:
`("WAIT", None)`, `("MOVE", direction)`, `("ATTACK", position)`. -/
inductive Act
  | wait
  | move (d : Dir)
  | attack (p : Pos)
deriving DecidableEq, Repr

/-- Python dict assignment `d[k] = v` on an insertion-ordered association list:
overwrite in place if the key exists, else append. -/
def dictInsert {α : Type} (k : Pos) (v : α) : List (Pos × α) → List (Pos × α)
  | [] => [(k, v)]
  | (k', v') :: rest => if k' = k then (k, v) :: rest else (k', v') :: dictInsert k v rest

/-- Python dict `d.pop(k)` on an association list: drop the first entry with the
given key (the only one, since dict keys are unique). -/
def removeKey (p : Pos) : List (Pos × Monster) → List (Pos × Monster)
  | [] => []
  | q :: rest => if q.1 = p then rest else q :: removeKey p rest

/-- Keys of a monster table (Python `env.monsters.keys()`). -/
def mkeys (l : List (Pos × Monster)) : List Pos := l.map Prod.fst

/-- Well-formedness of a monster table: dict keys are unique (automatic for a
Python dict, an explicit hypothesis for the association-list embedding). -/
def WFtable (l : List (Pos × Monster)) : Prop := (mkeys l).Nodup

instance : DecidablePred WFtable := fun l => by
  unfold WFtable; infer_instance

namespace MH

/-- `Agent` of `monster_hunt.py`: the memory cache maps a position to
`(level, last_seen_turn)`. -/
structure Agent where
  r : Int
  c : Int
  level : Nat
  kills : Nat
  alive : Bool
  known_monsters : List (Pos × (Nat × Nat))
deriving DecidableEq, Repr

/-- `Environment` of `monster_hunt.py`. -/
structure Env where
  R : Int
  C : Int
  agent : Agent
  monsters : List (Pos × Monster)
  turn : Nat
deriving DecidableEq, Repr

/-- `env.blocked()` — the set of monster-occupied cells. -/
def blocked (env : Env) : List Pos := mkeys env.monsters

/-- `Agent.predict_facing(mon)`: the facing the monster will have after the next
`env.step()` (it rotates next step iff `turns_seen + 1` is even). -/
def predict_facing (mon : Monster) : Dir :=
  if (mon.turns_seen + 1) % 2 = 0 then cwNext mon.facing else mon.facing

/-- The agent position as a pair. -/
def apos (env : Env) : Pos := (env.agent.r, env.agent.c)

/-- Step 1 of `plan_action`: record every monster within Chebyshev distance 2 in
the memory cache as `(level, env.turn)`. -/
def plan_known (env : Env) : List (Pos × (Nat × Nat)) :=
  env.monsters.foldl
    (fun kn pm =>
      if (pm.1.1 - env.agent.r).natAbs ≤ 2 && (pm.1.2 - env.agent.c).natAbs ≤ 2 then
        dictInsert pm.1 (pm.2.level, env.turn) kn
      else kn)
    env.agent.known_monsters

/-- Step 2 of `plan_action`: the viable candidates
`(Manhattan distance, level, position)` for every monster with level ≤ the
agent's. -/
def viableList (env : Env) : List (Nat × Nat × Pos) :=
  env.monsters.filterMap
    (fun pm =>
      if pm.2.level ≤ env.agent.level then
        some (mdist pm.1 (apos env), pm.2.level, pm.1)
      else none)

/-- Python tuple order on `(dist, level, (r, c))` triples — the order
`viable.sort()` sorts by. -/
def mhKeyLE (a b : Nat × Nat × Pos) : Prop :=
  a.1 < b.1 ∨ (a.1 = b.1 ∧ (a.2.1 < b.2.1 ∨ (a.2.1 = b.2.1 ∧
    (a.2.2.1 < b.2.2.1 ∨ (a.2.2.1 = b.2.2.1 ∧ a.2.2.2 ≤ b.2.2.2)))))

instance : DecidableRel mhKeyLE := fun a b => by
  unfold mhKeyLE; infer_instance

instance : IsTotal (Nat × Nat × Pos) mhKeyLE where
  total a b := by
    rcases a with ⟨a1, a2, a3, a4⟩
    rcases b with ⟨b1, b2, b3, b4⟩
    simp only [mhKeyLE]
    omega

instance : IsTrans (Nat × Nat × Pos) mhKeyLE where
  trans a b c hab hbc := by
    rcases a with ⟨a1, a2, a3, a4⟩
    rcases b with ⟨b1, b2, b3, b4⟩
    rcases c with ⟨c1, c2, c3, c4⟩
    simp only [mhKeyLE] at hab hbc ⊢
    omega

/-- `viable.sort()` — the candidate list sorted by Python tuple order. -/
def viableSorted (env : Env) : List (Nat × Nat × Pos) :=
  List.insertionSort mhKeyLE (viableList env)

/-- Steps 3–4 of `plan_action` for one candidate position: attack an adjacent
target unless its predicted next facing points back at the agent (stare-down);
otherwise move along the first non-empty BFS path to a safe approach cell.
`none` means the candidate yields no action. -/
def tryCandidate (env : Env) (tpos : Pos) : Option Act :=
  match List.lookup tpos env.monsters with
  | none => none
  | some tgt =>
    let next_face := predict_facing tgt
    if mdist tpos (apos env) = 1 then
      let dvec : Int × Int := (env.agent.r - tpos.1, env.agent.c - tpos.2)
      match allDirs.find? (fun d => decide (d.vec = dvec)) with
      | some dfm => if dfm ≠ next_face then some (Act.attack tpos) else none
      | none => none
    else
      let safes := allDirs.filterMap (fun d =>
        let a := padd tpos d.vec
        if inB env.R env.C a && !((blocked env).contains a) && decide (d ≠ next_face) then
          some a
        else none)
      safes.findSome? (fun g =>
        let p := bfs env.R env.C (blocked env) (apos env) g
        match p with
        | [] => none
        | d :: _ => some (Act.move d))

/-- The decision part of `Agent.plan_action`: `monster_hunt.py` tries only the
best-ranked candidate (`viable[0]`) and returns WAIT when it yields nothing. -/
def plan_decision (env : Env) : Act :=
  match viableSorted env with
  | [] => Act.wait
  | k :: _ => (tryCandidate env k.2.2).getD Act.wait

/-- `Agent.execute`: run the planning decision.  The memory-cache update from
step 1 of `plan_action` always happens; MOVE adds the unit vector to the agent
position; ATTACK pops the target and resolves combat. -/
def execute (env : Env) : Env :=
  let ag0 := { env.agent with known_monsters := plan_known env }
  match plan_decision env with
  | Act.wait => { env with agent := ag0 }
  | Act.move d =>
    { env with agent := { ag0 with r := ag0.r + d.vec.1, c := ag0.c + d.vec.2 } }
  | Act.attack p =>
    match List.lookup p env.monsters with
    | none => { env with agent := ag0 }
    | some mon =>
      let ms := removeKey p env.monsters
      if mon.level ≤ ag0.level then
        { env with
          agent := { ag0 with kills := ag0.kills + 1, level := ag0.level + 1 },
          monsters := ms }
      else
        { env with agent := { ag0 with alive := false }, monsters := ms }

/-- Rotate every monster (`for m in self.monsters.values(): m.rotate_if_needed()`). -/
def rotateAll (env : Env) : Env :=
  { env with monsters := env.monsters.map (fun pm => (pm.1, rotate_if_needed pm.2)) }

/-- Monster retaliation: if the cell directly ahead of any monster is the agent's
cell, the agent dies. -/
def retaliate (env : Env) : Env :=
  if env.monsters.any (fun pm => decide (padd (pm.2.r, pm.2.c) pm.2.facing.vec = apos env)) then
    { env with agent := { env.agent with alive := false } }
  else env

/-- The minimum monster level of a table (`min(m.level for m in ...)`); only used
on non-empty tables. -/
def minMonsterLevel : List (Pos × Monster) → Nat
  | [] => 0
  | pm :: rest => rest.foldl (fun a q => Nat.min a q.2.level) pm.2.level

/-- Overwrite the level of the first monster whose level is `tgt`
(`min(self.monsters.values(), key=lambda m: m.level)` picks the first minimal
monster in iteration order). -/
def setWeakest (tgt newl : Nat) : List (Pos × Monster) → List (Pos × Monster)
  | [] => []
  | pm :: rest =>
    if pm.2.level = tgt then (pm.1, { pm.2 with level := newl }) :: rest
    else pm :: setWeakest tgt newl rest

/-- `Environment.ensure_weaker_monster`: if every monster outranks the agent,
set the first weakest monster's level to `max(1, agent.level)`. -/
def ensure_weaker_monster (env : Env) : Env :=
  match env.monsters with
  | [] => env
  | _ :: _ =>
    if env.agent.level < minMonsterLevel env.monsters then
      { env with
        monsters := setWeakest (minMonsterLevel env.monsters)
          (Nat.max 1 env.agent.level) env.monsters }
    else env

/-- `Environment.step`: increment the turn counter, rotate every monster, run
`agent.execute`, apply monster retaliation, then restore the weaker-monster
invariant. -/
def step (env : Env) : Env :=
  ensure_weaker_monster (retaliate (execute (rotateAll { env with turn := env.turn + 1 })))

/-- Danger cells of the current state: the in-bounds cell directly ahead of each
monster's current facing (`monster_hunt.py` has no such helper; this mirrors
`dangerous_positions` of `AStar1.py`, the claim's notion of a currently
dangerous cell). -/
def dangerCells (env : Env) : List Pos :=
  env.monsters.filterMap (fun pm =>
    let p := padd (pm.2.r, pm.2.c) pm.2.facing.vec
    if inB env.R env.C p then some p else none)

end MH

/-! ### A* (`Agent.astar` in `AStar1.py`)

`heapq` pops the lexicographically least `(f, counter, pos, path)` tuple; the
counter is unique per push, so the popped entry is the one minimising
`(f, counter)` and the heap itself can be embedded as a plain list with a
min-extraction.  `g_score` is a dict embedded as an association list where
insertion prepends (so `List.lookup` sees the latest value). -/

/-- An open-heap entry `(f, counter, position, path)`. -/
structure AEntry where
  f : Nat
  cnt : Nat
  pos : Pos
  path : List Dir
deriving DecidableEq, Repr

/-- Strict lexicographic order on `(f, counter)` — the order `heapq` pops by
(positions and paths are never compared because counters are unique). -/
def entryLt (a b : AEntry) : Bool :=
  decide (a.f < b.f) || (decide (a.f = b.f) && decide (a.cnt < b.cnt))

/-- The minimal entry of `e :: l` under `entryLt`. -/
def findMin (e : AEntry) : List AEntry → AEntry
  | [] => e
  | x :: xs => findMin (if entryLt x e then x else e) xs

/-- `heapq.heappop`: the minimal entry and the heap with that entry removed. -/
def popMin : List AEntry → Option (AEntry × List AEntry)
  | [] => none
  | e :: l =>
    let m := findMin e l
    some (m, (e :: l).erase m)

/-- Set `g_score[p] = v` (prepend; `List.lookup` returns the newest binding). -/
def setG (p : Pos) (v : Nat) (gs : List (Pos × Nat)) : List (Pos × Nat) := (p, v) :: gs

/-- The neighbour-relaxation loop of one A* expansion: for each direction, an
in-bounds neighbour that is not visited, not blocked and not dangerous is
relaxed; on strict improvement of `g_score` a new entry is pushed with the next
counter value.  `base`/`bpath` are the just-finalised node and its path, `gb` its
`g_score` value. -/
def arelax (R C : Int) (blocked dangerous : List Pos) (goal : Pos)
    (visited : List Pos) (base : Pos) (bpath : List Dir) (gb : Nat) :
    List Dir → List AEntry → List (Pos × Nat) → Nat →
    List AEntry × List (Pos × Nat) × Nat
  | [], heap, gs, cnt => (heap, gs, cnt)
  | d :: ds, heap, gs, cnt =>
    let np := padd base d.vec
    if inB R C np && !(visited.contains np) && !(blocked.contains np) &&
        !(dangerous.contains np) then
      let tg := gb + 1
      let keep :=
        match List.lookup np gs with
        | none => true
        | some g => decide (tg < g)
      if keep then
        arelax R C blocked dangerous goal visited base bpath gb ds
          (heap ++ [⟨tg + mdist np goal, cnt + 1, np, bpath ++ [d]⟩])
          (setG np tg gs) (cnt + 1)
      else
        arelax R C blocked dangerous goal visited base bpath gb ds heap gs cnt
    else
      arelax R C blocked dangerous goal visited base bpath gb ds heap gs cnt

/-- The A* main loop (`while open_heap:`), with fuel counting pops.  A popped
entry whose position is already closed is discarded; otherwise the position is
closed, returned if it is the goal, and expanded otherwise. -/
def astarAux (R C : Int) (blocked dangerous : List Pos) (goal : Pos) :
    Nat → List AEntry → List (Pos × Nat) → List Pos → Nat → List Dir
  | 0, _, _, _, _ => []
  | fuel + 1, heap, gs, visited, cnt =>
    match popMin heap with
    | none => []
    | some (e, rest) =>
      if e.pos ∈ visited then astarAux R C blocked dangerous goal fuel rest gs visited cnt
      else
        if e.pos = goal then e.path
        else
          let gb := (List.lookup e.pos gs).getD 0
          let s := arelax R C blocked dangerous goal (e.pos :: visited) e.pos e.path gb
            allDirs rest gs cnt
          astarAux R C blocked dangerous goal fuel s.1 s.2.1 (e.pos :: visited) s.2.2

/-- `Agent.astar(env, goal)` generalised over the obstacle sets: start entry
`(h(start), 0, start, [])`, `g_score = {start: 0}`, empty closed set; return `[]`
when the heap empties.  The fuel `5*(R*C + 1) + 1` is proved sufficient below. -/
def astar (R C : Int) (blocked dangerous : List Pos) (start goal : Pos) : List Dir :=
  astarAux R C blocked dangerous goal (5 * (R.toNat * C.toNat + 1) + 1)
    [⟨mdist start goal, 0, start, []⟩] [(start, 0)] [] 0

namespace AS1

/-- `Agent` of `AStar1.py`: the memory cache maps a position to the monster seen
there. -/
structure Agent where
  r : Int
  c : Int
  level : Nat
  kills : Nat
  alive : Bool
  known_monsters : List (Pos × Monster)
deriving DecidableEq, Repr

/-- `Environment` of `AStar1.py`. -/
structure Env where
  R : Int
  C : Int
  agent : Agent
  monsters : List (Pos × Monster)
  turn : Nat
deriving DecidableEq, Repr

/-- The agent position as a pair. -/
def apos (env : Env) : Pos := (env.agent.r, env.agent.c)

/-- `env.blocked_positions()` — monster-occupied cells. -/
def blocked_positions (env : Env) : List Pos := mkeys env.monsters

/-- `env.dangerous_positions()` — for each monster, the in-bounds cell directly
ahead of its current facing. -/
def dangerous_positions (env : Env) : List Pos :=
  env.monsters.filterMap (fun pm =>
    let p := padd (pm.2.r, pm.2.c) pm.2.facing.vec
    if inB env.R env.C p then some p else none)

/-- `Agent.perceive`: record any monster in one of the four adjacent cells. -/
def perceive (env : Env) : List (Pos × Monster) :=
  allDirs.foldl
    (fun kn d =>
      let n := padd (apos env) d.vec
      if inB env.R env.C n then
        match List.lookup n env.monsters with
        | some m => dictInsert n m kn
        | none => kn
      else kn)
    env.agent.known_monsters

/-- The pruning step of `plan_action`: drop cached positions whose monster no
longer exists. -/
def pruneKnown (env : Env) (kn : List (Pos × Monster)) : List (Pos × Monster) :=
  kn.filter (fun pm => (List.lookup pm.1 env.monsters).isSome)

/-- Candidate targets `(dist, -level, pos)` for every monster with level ≤ the
agent's (the level is negated so that sorting prefers higher levels). -/
def targetsList (env : Env) : List (Nat × Int × Pos) :=
  env.monsters.filterMap
    (fun pm =>
      if pm.2.level ≤ env.agent.level then
        some (mdist pm.1 (apos env), -(pm.2.level : Int), pm.1)
      else none)

/-- Python tuple order on `(dist, -level, (r, c))` triples. -/
def asKeyLE (a b : Nat × Int × Pos) : Prop :=
  a.1 < b.1 ∨ (a.1 = b.1 ∧ (a.2.1 < b.2.1 ∨ (a.2.1 = b.2.1 ∧
    (a.2.2.1 < b.2.2.1 ∨ (a.2.2.1 = b.2.2.1 ∧ a.2.2.2 ≤ b.2.2.2)))))

instance : DecidableRel asKeyLE := fun a b => by
  unfold asKeyLE; infer_instance

instance : IsTotal (Nat × Int × Pos) asKeyLE where
  total a b := by
    rcases a with ⟨a1, a2, a3, a4⟩
    rcases b with ⟨b1, b2, b3, b4⟩
    simp only [asKeyLE]
    omega

instance : IsTrans (Nat × Int × Pos) asKeyLE where
  trans a b c hab hbc := by
    rcases a with ⟨a1, a2, a3, a4⟩
    rcases b with ⟨b1, b2, b3, b4⟩
    rcases c with ⟨c1, c2, c3, c4⟩
    simp only [asKeyLE] at hab hbc ⊢
    omega

/-- `targets.sort()` — candidates by (distance ascending, level descending,
position). -/
def targetsSorted (env : Env) : List (Nat × Int × Pos) :=
  List.insertionSort asKeyLE (targetsList env)

/-- One loop body of `plan_action` for candidate `tpos`: attack when adjacent
(no facing check in this variant); otherwise move along the first non-empty A*
path to a safe position around the monster. -/
def tryTarget (env : Env) (tpos : Pos) : Option Act :=
  if mdist tpos (apos env) = 1 then some (Act.attack tpos)
  else
    match List.lookup tpos env.monsters with
    | none => none
    | some mon =>
      let safes := allDirs.filterMap (fun d =>
        let a := padd tpos d.vec
        if inB env.R env.C a && !((blocked_positions env).contains a) &&
            decide (d ≠ mon.facing) then
          some a
        else none)
      safes.findSome? (fun spot =>
        let p := astar env.R env.C (blocked_positions env) (dangerous_positions env)
          (apos env) spot
        match p with
        | [] => none
        | d :: _ => some (Act.move d))

/-- The decision part of `Agent.plan_action`: candidates are tried in rank
order; WAIT only when every candidate yields nothing. -/
def plan_decision (env : Env) : Act :=
  ((targetsSorted env).findSome? (fun t => tryTarget env t.2.2)).getD Act.wait

/-- `Agent.execute`: run the planning decision.  The perception update and the
pruning of stale cache entries always happen; ATTACK uses `pop(arg, None)`, so a
missing target also kills the agent (unreachable in well-formed states). -/
def execute (env : Env) : Env :=
  let ag0 := { env.agent with known_monsters := pruneKnown env (perceive env) }
  match plan_decision env with
  | Act.wait => { env with agent := ag0 }
  | Act.move d =>
    { env with agent := { ag0 with r := ag0.r + d.vec.1, c := ag0.c + d.vec.2 } }
  | Act.attack p =>
    match List.lookup p env.monsters with
    | some mon =>
      let ms := removeKey p env.monsters
      if mon.level ≤ ag0.level then
        { env with
          agent := { ag0 with kills := ag0.kills + 1, level := ag0.level + 1 },
          monsters := ms }
      else
        { env with agent := { ag0 with alive := false }, monsters := ms }
    | none => { env with agent := { ag0 with alive := false } }

/-- Rotate every monster. -/
def rotateAll (env : Env) : Env :=
  { env with monsters := env.monsters.map (fun pm => (pm.1, rotate_if_needed pm.2)) }

/-- Monster retaliation (identical in effect to the `monster_hunt.py` scan). -/
def retaliate (env : Env) : Env :=
  if env.monsters.any (fun pm => decide (padd (pm.2.r, pm.2.c) pm.2.facing.vec = apos env)) then
    { env with agent := { env.agent with alive := false } }
  else env

/-- `Environment.step` of `AStar1.py`: the retaliation scan runs only when the
agent is still alive. -/
def step (env : Env) : Env :=
  let e1 := execute (rotateAll { env with turn := env.turn + 1 })
  if e1.agent.alive then retaliate e1 else e1

end AS1

/-! ### Monster placement (`Environment.__init__`) -/

/-- One placement attempt of `Environment.__init__` (monster_hunt.py lines
146-149 and the identical loops of the other variants):
`while True: r, c = random.randrange(R), random.randrange(C);
 if (r, c) != (ar, ac) and (r, c) not in self.monsters: break`.
The random stream is a function `Nat → Nat × Nat` read at `idx`, with
`randrange` modelled as reduction mod the bound; `occupied` is the agent cell
together with the already-placed monster cells.  Fuel bounds the number of loop
iterations; `none` means the loop has not exited within `fuel` iterations (the
Python loop itself is unbounded and has no failure branch). -/
def find_free_cell (R C : Nat) (occupied : List Pos) (stream : Nat → Nat × Nat) :
    Nat → Nat → Option (Pos × Nat)
  | _, 0 => none
  | idx, fuel + 1 =>
    let rc := stream idx
    let p : Pos := (((rc.1 % R : Nat) : Int), ((rc.2 % C : Nat) : Int))
    if p ∈ occupied then find_free_cell R C occupied stream (idx + 1) fuel
    else some (p, idx + 1)

/-! ### Claim-side definitions and concrete states -/

/-- Whether an action is an ATTACK. -/
def isAtk : Act → Bool
  | Act.attack _ => true
  | _ => false

/-- The ranking order asserted by the specification for candidate triples
`(dist, level, pos)`: Manhattan distance ascending and, among equal distances,
level descending. -/
def claimRankLE (a b : Nat × Nat × Pos) : Prop :=
  a.1 < b.1 ∨ (a.1 = b.1 ∧ b.2.1 ≤ a.2.1)

instance : DecidableRel claimRankLE := fun a b => by
  unfold claimRankLE; infer_instance

/-- The same specification ranking on `SimpleBFS.py`'s flat
`(dist, level, mr, mc)` quadruples: Manhattan distance ascending and, among
equal distances, level descending. -/
def claimRankLE4 (a b : Nat × Nat × Int × Int) : Prop :=
  a.1 < b.1 ∨ (a.1 = b.1 ∧ b.2.1 ≤ a.2.1)

instance : DecidableRel claimRankLE4 := fun a b => by
  unfold claimRankLE4; infer_instance

namespace SB

/-- `SimpleBFS.py` `plan_action`, target collection: the candidates
`(dist, monster.level, mr, mc)` for every monster whose level is at most the
agent's, built from the agent position `(ar, ac)`, the agent level `lvl` and
the monster table (`targets.append((dist, monster.level, mr, mc))`). -/
def targetsList (ar ac : Int) (lvl : Nat) (monsters : List (Pos × Monster)) :
    List (Nat × Nat × Int × Int) :=
  monsters.filterMap
    (fun pm =>
      if pm.2.level ≤ lvl then
        some (mdist pm.1 (ar, ac), pm.2.level, pm.1.1, pm.1.2)
      else none)

/-- Python tuple order on `(dist, level, mr, mc)` quadruples — the order
`targets.sort()` sorts by in `SimpleBFS.py` (no negation on the level). -/
def sbKeyLE (a b : Nat × Nat × Int × Int) : Prop :=
  a.1 < b.1 ∨ (a.1 = b.1 ∧ (a.2.1 < b.2.1 ∨ (a.2.1 = b.2.1 ∧
    (a.2.2.1 < b.2.2.1 ∨ (a.2.2.1 = b.2.2.1 ∧ a.2.2.2 ≤ b.2.2.2)))))

instance : DecidableRel sbKeyLE := fun a b => by
  unfold sbKeyLE; infer_instance

instance : IsTotal (Nat × Nat × Int × Int) sbKeyLE where
  total a b := by
    rcases a with ⟨a1, a2, a3, a4⟩
    rcases b with ⟨b1, b2, b3, b4⟩
    simp only [sbKeyLE]
    omega

instance : IsTrans (Nat × Nat × Int × Int) sbKeyLE where
  trans a b c hab hbc := by
    rcases a with ⟨a1, a2, a3, a4⟩
    rcases b with ⟨b1, b2, b3, b4⟩
    rcases c with ⟨c1, c2, c3, c4⟩
    simp only [sbKeyLE] at hab hbc ⊢
    omega

/-- `targets.sort()` — `SimpleBFS.py`'s candidate list sorted by Python tuple
order. -/
def targetsSorted (ar ac : Int) (lvl : Nat) (monsters : List (Pos × Monster)) :
    List (Nat × Nat × Int × Int) :=
  List.insertionSort sbKeyLE (targetsList ar ac lvl monsters)

end SB

namespace MH

/-- The planning loop as the specification words it (step 5c): try the ranked
candidates in order, falling through to the next candidate whenever one yields
neither an ATTACK nor a MOVE, and WAIT only after all are exhausted.  This is
the spec-side comparison point for the single-candidate `plan_decision` of
`monster_hunt.py`. -/
def plan_decision_spec (env : Env) : Act :=
  ((viableSorted env).findSome? (fun k => tryCandidate env k.2.2)).getD Act.wait

end MH

/-- Shorthand monster constructor for concrete states. -/
def mkM (r c : Int) (lvl : Nat) (f : Dir) (t : Nat) : Monster := ⟨r, c, lvl, f, t⟩

/-- Concrete `monster_hunt.py` state for C2: a 5×4 grid, agent at (0,0) level 1,
a viable target at (2,2) facing north and a level-9 monster at (2,0) facing
north, whose danger cell (1,0) lies on the BFS path toward the target. -/
def exC2 : MH.Env :=
  ⟨5, 4, ⟨0, 0, 1, 0, true, []⟩,
   [((2,2), mkM 2 2 1 Dir.N 0), ((2,0), mkM 2 0 9 Dir.N 0)], 0⟩

/-- Concrete `monster_hunt.py` state for C6 and C7: agent at (0,0) level 2 with
two viable monsters at equal Manhattan distance 1 — a level-1 monster at (0,1)
staring at the agent (facing W, no rotation due) and a level-2 monster at (1,0)
facing E. -/
def exC6 : MH.Env :=
  ⟨5, 5, ⟨0, 0, 2, 0, true, []⟩,
   [((0,1), mkM 0 1 1 Dir.W 0), ((1,0), mkM 1 0 2 Dir.E 0)], 0⟩

/-- Concrete `SimpleBFS.py` monster table mirroring `exC6`: a level-1 monster
at (0,1) and a level-2 monster at (1,0), both at Manhattan distance 1 from an
agent at (0,0) of level 2. -/
def exSB : List (Pos × Monster) :=
  [((0,1), mkM 0 1 1 Dir.W 0), ((1,0), mkM 1 0 2 Dir.E 0)]

/-- The same state as `exC6`, kept separate for the C7 counterexample. -/
def exC7 : MH.Env :=
  ⟨5, 5, ⟨0, 0, 2, 0, true, []⟩,
   [((0,1), mkM 0 1 1 Dir.W 0), ((1,0), mkM 1 0 2 Dir.E 0)], 0⟩

/-- Concrete `monster_hunt.py` state where the agent attacks: a level-1 monster
at (0,1) facing E (away from the agent) with the agent adjacent at (0,0). -/
def exAttack : MH.Env :=
  ⟨5, 5, ⟨0, 0, 1, 0, true, []⟩, [((0,1), mkM 0 1 1 Dir.E 0)], 0⟩

/-- Concrete `monster_hunt.py` state where retaliation fires: a level-5 monster
at (2,0) faces N, directly at the agent standing at (1,0). -/
def exRet : MH.Env :=
  ⟨5, 5, ⟨1, 0, 1, 0, true, []⟩, [((2,0), mkM 2 0 5 Dir.N 0)], 0⟩

/-- Concrete `AStar1.py` state where the agent moves: a 3×5 grid, agent at
(0,0) level 1, a level-1 monster at (0,3) facing E. -/
def exAS : AS1.Env :=
  ⟨3, 5, ⟨0, 0, 1, 0, true, []⟩, [((0,3), mkM 0 3 1 Dir.E 0)], 0⟩

/-! ### Association-list and findSome? helper lemmas -/

theorem lookup_eq_some_of_mem {α : Type} {l : List (Pos × α)} {k : Pos} {v : α}
    (h : (k, v) ∈ l) (hnd : (l.map Prod.fst).Nodup) : List.lookup k l = some v := by
  induction l with
  | nil => cases h
  | cons hd tl ih =>
    rcases hd with ⟨k', v'⟩
    simp only [List.map_cons, List.nodup_cons] at hnd
    rcases List.mem_cons.1 h with h1 | h1
    · cases h1
      simp [List.lookup]
    · have hk : k ≠ k' := by
        rintro rfl
        exact hnd.1 (List.mem_map.2 ⟨(k, v), h1, rfl⟩)
      have hbe : (k == k') = false := by simp [beq_iff_eq, hk]
      simp only [List.lookup, hbe]
      exact ih h1 hnd.2

theorem mem_of_lookup_eq_some {α : Type} {l : List (Pos × α)} {k : Pos} {v : α}
    (h : List.lookup k l = some v) : (k, v) ∈ l := by
  induction l with
  | nil => simp [List.lookup] at h
  | cons hd tl ih =>
    rcases hd with ⟨k', v'⟩
    by_cases hk : k = k'
    · subst hk
      have hbe : (k == k) = true := by simp
      simp only [List.lookup, hbe] at h
      cases h
      exact List.mem_cons_self _ _
    · have hbe : (k == k') = false := by simp [beq_iff_eq, hk]
      simp only [List.lookup, hbe] at h
      exact List.mem_cons_of_mem _ (ih h)

theorem findSome?_eq_some_imp {α β : Type} {f : α → Option β} {l : List α} {b : β}
    (h : l.findSome? f = some b) : ∃ a ∈ l, f a = some b := by
  induction l with
  | nil => simp [List.findSome?] at h
  | cons hd tl ih =>
    rw [List.findSome?] at h
    cases hf : f hd with
    | some v =>
      rw [hf] at h
      cases h
      exact ⟨hd, List.mem_cons_self _ _, hf⟩
    | none =>
      rw [hf] at h
      rcases ih h with ⟨a, ha, hfa⟩
      exact ⟨a, List.mem_cons_of_mem _ ha, hfa⟩

theorem findSome?_none_iff {α β : Type} {f : α → Option β} {l : List α} :
    l.findSome? f = none ↔ ∀ a ∈ l, f a = none := by
  induction l with
  | nil => simp [List.findSome?]
  | cons hd tl ih =>
    rw [List.findSome?]
    cases hf : f hd with
    | some v => simp [hf]
    | none => simp [hf, ih]

/-! ### Action-shape lemmas for the planners -/

theorem MH_tryCandidate_shape {env : MH.Env} {t : Pos} {a : Act}
    (h : MH.tryCandidate env t = some a) :
    (∃ p, a = Act.attack p) ∨ (∃ d, a = Act.move d) := by
  unfold MH.tryCandidate at h
  dsimp only at h
  split at h
  · simp at h
  · split at h
    · split at h
      · split at h
        · cases h
          exact Or.inl ⟨_, rfl⟩
        · simp at h
      · simp at h
    · rcases findSome?_eq_some_imp h with ⟨g, _, hfg⟩
      revert hfg
      split
      · intro hfg; cases hfg
      · intro hfg; cases hfg; exact Or.inr ⟨_, rfl⟩

theorem MH_tryCandidate_ne_wait {env : MH.Env} {t : Pos} {a : Act}
    (h : MH.tryCandidate env t = some a) : a ≠ Act.wait := by
  rcases MH_tryCandidate_shape h with ⟨p, rfl⟩ | ⟨d, rfl⟩ <;> simp

theorem AS1_tryTarget_shape {env : AS1.Env} {t : Pos} {a : Act}
    (h : AS1.tryTarget env t = some a) :
    (∃ p, a = Act.attack p) ∨ (∃ d, a = Act.move d) := by
  unfold AS1.tryTarget at h
  dsimp only at h
  split at h
  · cases h
    exact Or.inl ⟨_, rfl⟩
  · split at h
    · simp at h
    · rcases findSome?_eq_some_imp h with ⟨g, _, hfg⟩
      revert hfg
      split
      · intro hfg; cases hfg
      · intro hfg; cases hfg; exact Or.inr ⟨_, rfl⟩

theorem AS1_tryTarget_ne_wait {env : AS1.Env} {t : Pos} {a : Act}
    (h : AS1.tryTarget env t = some a) : a ≠ Act.wait := by
  rcases AS1_tryTarget_shape h with ⟨p, rfl⟩ | ⟨d, rfl⟩ <;> simp

/-! ### C6 — candidate ranking -/

/-- C6 (counterexample): in `monster_hunt.py` the sorted candidate list of the
concrete state `exC6` is `[(1, 1, (0,1)), (1, 2, (1,0))]` — at equal distance
the LOWER level comes first — which is not ordered by the claimed
(distance ascending, level descending) ranking; `SimpleBFS.py` sorts the
mirroring concrete table `exSB` into the same lower-level-first order, also
violating the claimed ranking. -/
theorem C6_counterexample :
    MH.viableSorted exC6 = [(1, 1, ((0:Int), (1:Int))), (1, 2, ((1:Int), (0:Int)))] ∧
    ¬ List.Pairwise claimRankLE (MH.viableSorted exC6) ∧
    SB.targetsSorted 0 0 2 exSB = [(1, 1, (0:Int), (1:Int)), (1, 2, (1:Int), (0:Int))] ∧
    ¬ List.Pairwise claimRankLE4 (SB.targetsSorted 0 0 2 exSB) := by
  refine ⟨by decide, by decide, by decide, by decide⟩

/-- C6 (amended): `monster_hunt.py` ranks candidates by Python tuple order on
`(distance, level, position)` — distance ascending, then level ASCENDING —
and `SimpleBFS.py` ranks by Python tuple order on
`(distance, level, row, col)` — likewise distance ascending, then level
ASCENDING — while `AStar1.py` ranks by tuple order on
`(distance, -level, position)` — distance ascending, then level descending.
Each sorted list is a permutation of the corresponding candidate list. -/
theorem C6_rank_order (env : MH.Env) (env' : AS1.Env)
    (ar ac : Int) (lvl : Nat) (ms : List (Pos × Monster)) :
    List.Pairwise MH.mhKeyLE (MH.viableSorted env) ∧
    (MH.viableSorted env).Perm (MH.viableList env) ∧
    List.Pairwise AS1.asKeyLE (AS1.targetsSorted env') ∧
    (AS1.targetsSorted env').Perm (AS1.targetsList env') ∧
    List.Pairwise SB.sbKeyLE (SB.targetsSorted ar ac lvl ms) ∧
    (SB.targetsSorted ar ac lvl ms).Perm (SB.targetsList ar ac lvl ms) :=
  ⟨List.sorted_insertionSort MH.mhKeyLE _, List.perm_insertionSort MH.mhKeyLE _,
   List.sorted_insertionSort AS1.asKeyLE _, List.perm_insertionSort AS1.asKeyLE _,
   List.sorted_insertionSort SB.sbKeyLE _, List.perm_insertionSort SB.sbKeyLE _⟩

/-! ### C7 — candidate fall-through -/

/-- C7 (counterexample): in the concrete state `exC7` the best-ranked candidate
(the adjacent level-1 monster staring at the agent) yields no action and
`monster_hunt.py` returns WAIT, although the next-ranked candidate (the adjacent
level-2 monster facing away) would yield ATTACK — as the spec-side fall-through
planner shows. -/
theorem C7_counterexample :
    MH.plan_decision exC7 = Act.wait ∧
    MH.plan_decision_spec exC7 = Act.attack ((1:Int), (0:Int)) := by
  constructor
  · decide
  · decide

/-- C7 (amended): `AStar1.py` implements the claimed fall-through — it returns
WAIT iff every ranked candidate yields no action — while `monster_hunt.py`
consults only the single best-ranked candidate: it returns WAIT iff the first
candidate (if any) yields no action. -/
theorem C7_wait_exhaustion (env : MH.Env) (env' : AS1.Env) :
    (AS1.plan_decision env' = Act.wait ↔
      ∀ t ∈ AS1.targetsSorted env', AS1.tryTarget env' t.2.2 = none) ∧
    (MH.plan_decision env = Act.wait ↔
      ∀ k ∈ (MH.viableSorted env).take 1, MH.tryCandidate env k.2.2 = none) := by
  constructor
  · unfold AS1.plan_decision
    cases hf : (AS1.targetsSorted env').findSome? (fun t => AS1.tryTarget env' t.2.2) with
    | none =>
      simp only [Option.getD]
      constructor
      · intro _ t ht
        exact (findSome?_none_iff.1 hf) t ht
      · intro _; trivial
    | some a =>
      simp only [Option.getD]
      rcases findSome?_eq_some_imp hf with ⟨t, ht, hft⟩
      constructor
      · intro ha
        exact absurd ha (AS1_tryTarget_ne_wait hft)
      · intro hall
        rw [hall t ht] at hft
        cases hft
  · unfold MH.plan_decision
    cases hv : MH.viableSorted env with
    | nil => simp
    | cons k rest =>
      simp only [List.take, List.mem_cons]
      cases hc : MH.tryCandidate env k.2.2 with
      | none =>
        simp only [Option.getD]
        constructor
        · intro _ x hx
          rcases hx with rfl | hx
          · exact hc
          · simp at hx
        · intro _; trivial
      | some a =>
        simp only [Option.getD]
        constructor
        · intro ha
          exact absurd ha (MH_tryCandidate_ne_wait hc)
        · intro hall
          have := hall k (Or.inl rfl)
          rw [this] at hc
          cases hc

/-! ### C8 — construction with too many monsters -/

/-- C8: on a 1×1 grid with the agent occupying the single cell, the monster
placement loop of `Environment.__init__` never finds a free cell: for every
random stream and every iteration bound the loop is still running.  The
constructor therefore hangs forever instead of raising a `ConfigurationError`
(no such error exists anywhere in the repository). -/
theorem C8_placement_diverges (stream : Nat → Nat × Nat) (idx fuel : Nat) :
    find_free_cell 1 1 [((0:Int), (0:Int))] stream idx fuel = none := by
  induction fuel generalizing idx with
  | zero => rfl
  | succ n ih =>
    unfold find_free_cell
    simp only [Nat.mod_one, Nat.cast_zero]
    simpa using ih (idx + 1)

/-! ### Structural lemmas about the monster_hunt pipeline -/

theorem MH_mem_viableList {env : MH.Env} {k : Nat × Nat × Pos}
    (h : k ∈ MH.viableList env) :
    ∃ m : Monster, (k.2.2, m) ∈ env.monsters ∧ m.level ≤ env.agent.level ∧
      k.2.1 = m.level := by
  unfold MH.viableList at h
  rcases List.mem_filterMap.1 h with ⟨pm, hpm, hsome⟩
  revert hsome
  split
  · intro hsome
    cases hsome
    exact ⟨pm.2, by simpa using hpm, by assumption, rfl⟩
  · intro hsome
    cases hsome

theorem MH_mem_viableSorted {env : MH.Env} {k : Nat × Nat × Pos}
    (h : k ∈ MH.viableSorted env) : k ∈ MH.viableList env :=
  (List.perm_insertionSort MH.mhKeyLE _).subset h

theorem MH_plan_attack_viable {env : MH.Env} {p : Pos}
    (hWF : WFtable env.monsters) (h : MH.plan_decision env = Act.attack p) :
    ∃ m, List.lookup p env.monsters = some m ∧ m.level ≤ env.agent.level := by
  unfold MH.plan_decision at h
  cases hv : MH.viableSorted env with
  | nil => rw [hv] at h; cases h
  | cons k rest =>
    rw [hv] at h
    dsimp only at h
    cases hc : MH.tryCandidate env k.2.2 with
    | none => rw [hc] at h; cases h
    | some a =>
      rw [hc] at h
      simp only [Option.getD] at h
      subst h
      rcases MH_mem_viableList (MH_mem_viableSorted (hv ▸ List.mem_cons_self k rest))
        with ⟨m, hmem, hlvl, _⟩
      have hlk : List.lookup k.2.2 env.monsters = some m :=
        lookup_eq_some_of_mem hmem hWF
      unfold MH.tryCandidate at hc
      dsimp only at hc
      rw [hlk] at hc
      dsimp only at hc
      split at hc
      · split at hc
        · split at hc
          · cases hc
            exact ⟨m, hlk, hlvl⟩
          · simp at hc
        · simp at hc
      · rcases findSome?_eq_some_imp hc with ⟨g, _, hfg⟩
        revert hfg
        split
        · intro hfg; cases hfg
        · intro hfg; cases hfg

theorem AS1_mem_targetsList {env : AS1.Env} {k : Nat × Int × Pos}
    (h : k ∈ AS1.targetsList env) :
    ∃ m : Monster, (k.2.2, m) ∈ env.monsters ∧ m.level ≤ env.agent.level := by
  unfold AS1.targetsList at h
  rcases List.mem_filterMap.1 h with ⟨pm, hpm, hsome⟩
  revert hsome
  split
  · intro hsome
    cases hsome
    exact ⟨pm.2, by simpa using hpm, by assumption⟩
  · intro hsome
    cases hsome

theorem AS1_plan_attack_viable {env : AS1.Env} {p : Pos}
    (hWF : WFtable env.monsters) (h : AS1.plan_decision env = Act.attack p) :
    ∃ m, List.lookup p env.monsters = some m ∧ m.level ≤ env.agent.level := by
  unfold AS1.plan_decision at h
  cases hf : (AS1.targetsSorted env).findSome? (fun t => AS1.tryTarget env t.2.2) with
  | none => rw [hf] at h; cases h
  | some a =>
    rw [hf] at h
    simp only [Option.getD] at h
    subst h
    rcases findSome?_eq_some_imp hf with ⟨t, ht, htt⟩
    have htl : t ∈ AS1.targetsList env :=
      (List.perm_insertionSort AS1.asKeyLE _).subset ht
    rcases AS1_mem_targetsList htl with ⟨m, hmem, hlvl⟩
    have hlk : List.lookup t.2.2 env.monsters = some m :=
      lookup_eq_some_of_mem hmem hWF
    unfold AS1.tryTarget at htt
    dsimp only at htt
    split at htt
    · cases htt
      exact ⟨m, hlk, hlvl⟩
    · rw [hlk] at htt
      dsimp only at htt
      rcases findSome?_eq_some_imp htt with ⟨g, _, hfg⟩
      revert hfg
      split
      · intro hfg; cases hfg
      · intro hfg; cases hfg

/-! ### C4 — viability of attacks and unreachability of the death branch -/

/-- C4: in `monster_hunt.py`, every ATTACK issued by `plan_action` targets a
monster (present in the table) whose level is at most the agent's level at
planning time; consequently `execute` never takes the failed-attack branch and
the agent's liveness flag is unchanged by `execute`. -/
theorem C4_attack_viability (env : MH.Env) (hWF : WFtable env.monsters) :
    (∀ p, MH.plan_decision env = Act.attack p →
      ∃ m, List.lookup p env.monsters = some m ∧ m.level ≤ env.agent.level) ∧
    (MH.execute env).agent.alive = env.agent.alive := by
  refine ⟨fun p hp => MH_plan_attack_viable hWF hp, ?_⟩
  unfold MH.execute
  dsimp only
  cases hd : MH.plan_decision env with
  | wait => rfl
  | move d => rfl
  | attack p =>
    rcases MH_plan_attack_viable hWF hd with ⟨m, hm, hlvl⟩
    dsimp only
    rw [hm]
    dsimp only
    rw [if_pos hlvl]

/-- C4 (witness): a concrete state in which the agent does attack. -/
theorem C4_attack_viability_witness :
    WFtable exAttack.monsters ∧ (MH.execute exAttack).agent.alive = exAttack.agent.alive :=
  ⟨by decide, (C4_attack_viability exAttack (by decide)).2⟩

/-! ### C5 — level and kill accounting -/

theorem MH_retaliate_agent_level (e : MH.Env) :
    (MH.retaliate e).agent.level = e.agent.level := by
  unfold MH.retaliate
  split <;> rfl

theorem MH_ensure_agent (e : MH.Env) :
    (MH.ensure_weaker_monster e).agent = e.agent := by
  unfold MH.ensure_weaker_monster
  split
  · rfl
  · split <;> rfl

theorem MH_execute_level_kills (env : MH.Env) (hWF : WFtable env.monsters) :
    (MH.execute env).agent.level =
      env.agent.level + (if isAtk (MH.plan_decision env) then 1 else 0) ∧
    (MH.execute env).agent.kills =
      env.agent.kills + (if isAtk (MH.plan_decision env) then 1 else 0) := by
  unfold MH.execute
  dsimp only
  cases hd : MH.plan_decision env with
  | wait => simp [isAtk]
  | move d => simp [isAtk]
  | attack p =>
    rcases MH_plan_attack_viable hWF hd with ⟨m, hm, hlvl⟩
    dsimp only
    rw [hm]
    dsimp only
    rw [if_pos hlvl]
    simp [isAtk]

theorem MH_execute_level_mono (env : MH.Env) :
    env.agent.level ≤ (MH.execute env).agent.level := by
  unfold MH.execute
  dsimp only
  cases MH.plan_decision env with
  | wait => simp
  | move d => simp
  | attack p =>
    dsimp only
    cases hlk : List.lookup p env.monsters with
    | none => simp
    | some mon =>
      dsimp only
      split <;> simp

theorem MH_step_level_mono (env : MH.Env) :
    env.agent.level ≤ (MH.step env).agent.level := by
  unfold MH.step
  rw [MH_ensure_agent, MH_retaliate_agent_level]
  have h := MH_execute_level_mono (MH.rotateAll { env with turn := env.turn + 1 })
  simpa [MH.rotateAll] using h

theorem AS1_retaliate_agent_level (e : AS1.Env) :
    (AS1.retaliate e).agent.level = e.agent.level := by
  unfold AS1.retaliate
  split <;> rfl

theorem AS1_execute_level_kills (env : AS1.Env) (hWF : WFtable env.monsters) :
    (AS1.execute env).agent.level =
      env.agent.level + (if isAtk (AS1.plan_decision env) then 1 else 0) ∧
    (AS1.execute env).agent.kills =
      env.agent.kills + (if isAtk (AS1.plan_decision env) then 1 else 0) := by
  unfold AS1.execute
  dsimp only
  cases hd : AS1.plan_decision env with
  | wait => simp [isAtk]
  | move d => simp [isAtk]
  | attack p =>
    rcases AS1_plan_attack_viable hWF hd with ⟨m, hm, hlvl⟩
    dsimp only
    rw [hm]
    dsimp only
    rw [if_pos hlvl]
    simp [isAtk]

theorem AS1_execute_level_mono (env : AS1.Env) :
    env.agent.level ≤ (AS1.execute env).agent.level := by
  unfold AS1.execute
  dsimp only
  cases AS1.plan_decision env with
  | wait => simp
  | move d => simp
  | attack p =>
    dsimp only
    cases hlk : List.lookup p env.monsters with
    | none => simp
    | some mon =>
      dsimp only
      split <;> simp

theorem AS1_step_level_mono (env : AS1.Env) :
    env.agent.level ≤ (AS1.step env).agent.level := by
  unfold AS1.step
  dsimp only
  have h := AS1_execute_level_mono (AS1.rotateAll { env with turn := env.turn + 1 })
  rw [show (AS1.rotateAll { env with turn := env.turn + 1 }).agent = env.agent from rfl] at h
  split
  · rw [AS1_retaliate_agent_level]
    exact h
  · exact h

/-- C5: in both variants the agent's level and kill counter each increase by
exactly 1 when the planned action is an ATTACK (whose target, by C4, is always
present with level at most the agent's) and are unchanged for MOVE and WAIT;
and the level never decreases across a whole `step()`. -/
theorem C5_level_invariant (env : MH.Env) (env' : AS1.Env)
    (hWF : WFtable env.monsters) (hWF' : WFtable env'.monsters) :
    ((MH.execute env).agent.level =
       env.agent.level + (if isAtk (MH.plan_decision env) then 1 else 0)) ∧
    ((MH.execute env).agent.kills =
       env.agent.kills + (if isAtk (MH.plan_decision env) then 1 else 0)) ∧
    env.agent.level ≤ (MH.step env).agent.level ∧
    ((AS1.execute env').agent.level =
       env'.agent.level + (if isAtk (AS1.plan_decision env') then 1 else 0)) ∧
    ((AS1.execute env').agent.kills =
       env'.agent.kills + (if isAtk (AS1.plan_decision env') then 1 else 0)) ∧
    env'.agent.level ≤ (AS1.step env').agent.level :=
  ⟨(MH_execute_level_kills env hWF).1, (MH_execute_level_kills env hWF).2,
   MH_step_level_mono env, (AS1_execute_level_kills env' hWF').1,
   (AS1_execute_level_kills env' hWF').2, AS1_step_level_mono env'⟩

/-- C5 (witness): the concrete attacking state has its level incremented. -/
theorem C5_level_invariant_witness :
    WFtable exAttack.monsters ∧ WFtable exAS.monsters ∧
    (MH.execute exAttack).agent.level =
      exAttack.agent.level + (if isAtk (MH.plan_decision exAttack) then 1 else 0) :=
  ⟨by decide, by decide, (C5_level_invariant exAttack exAS (by decide) (by decide)).1⟩

/-! ### C3 — end-of-step lethality -/

theorem MH_setWeakest_shape (t n : Nat) :
    ∀ l : List (Pos × Monster), ∀ pm ∈ MH.setWeakest t n l,
      ∃ pm0 ∈ l, pm.1 = pm0.1 ∧ pm.2.r = pm0.2.r ∧ pm.2.c = pm0.2.c ∧
        pm.2.facing = pm0.2.facing := by
  intro l
  induction l with
  | nil => intro pm h; cases h
  | cons hd tl ih =>
    intro pm h
    unfold MH.setWeakest at h
    split at h
    · rcases List.mem_cons.1 h with rfl | h1
      · exact ⟨hd, List.mem_cons_self _ _, rfl, rfl, rfl, rfl⟩
      · exact ⟨pm, List.mem_cons_of_mem _ h1, rfl, rfl, rfl, rfl⟩
    · rcases List.mem_cons.1 h with rfl | h1
      · exact ⟨pm, List.mem_cons_self _ _, rfl, rfl, rfl, rfl⟩
      · rcases ih pm h1 with ⟨pm0, hpm0, he⟩
        exact ⟨pm0, List.mem_cons_of_mem _ hpm0, he⟩

theorem MH_ensure_monsters_shape (e : MH.Env) :
    ∀ pm ∈ (MH.ensure_weaker_monster e).monsters,
      ∃ pm0 ∈ e.monsters, pm.1 = pm0.1 ∧ pm.2.r = pm0.2.r ∧ pm.2.c = pm0.2.c ∧
        pm.2.facing = pm0.2.facing := by
  intro pm h
  unfold MH.ensure_weaker_monster at h
  split at h
  · exact ⟨pm, h, rfl, rfl, rfl, rfl⟩
  · split at h
    · exact MH_setWeakest_shape _ _ _ pm h
    · exact ⟨pm, h, rfl, rfl, rfl, rfl⟩

theorem MH_retaliate_monsters (e : MH.Env) : (MH.retaliate e).monsters = e.monsters := by
  unfold MH.retaliate
  split <;> rfl

theorem MH_retaliate_apos (e : MH.Env) : MH.apos (MH.retaliate e) = MH.apos e := by
  unfold MH.retaliate MH.apos
  split <;> rfl

theorem MH_retaliate_dead (e : MH.Env)
    (h : ∃ pm ∈ e.monsters, padd (pm.2.r, pm.2.c) pm.2.facing.vec = MH.apos e) :
    (MH.retaliate e).agent.alive = false := by
  rcases h with ⟨pm, hpm, hfront⟩
  unfold MH.retaliate
  rw [if_pos]
  exact List.any_eq_true.2 ⟨pm, hpm, by simpa using hfront⟩

/-- C3: at the end of every `step()`, in both variants, if the cell directly
ahead of any surviving monster's facing is the agent's cell then the agent is
dead.  (`monster_hunt.py` runs the retaliation scan unconditionally;
`AStar1.py` guards it with `if self.agent.alive`, which makes no difference to
this property.) -/
theorem C3_step_lethality (env : MH.Env) (env' : AS1.Env) :
    ((∃ pm ∈ (MH.step env).monsters,
        padd (pm.2.r, pm.2.c) pm.2.facing.vec = MH.apos (MH.step env)) →
      (MH.step env).agent.alive = false) ∧
    ((∃ pm ∈ (AS1.step env').monsters,
        padd (pm.2.r, pm.2.c) pm.2.facing.vec = AS1.apos (AS1.step env')) →
      (AS1.step env').agent.alive = false) := by
  constructor
  · intro h
    unfold MH.step at h ⊢
    set e3 := MH.execute (MH.rotateAll { env with turn := env.turn + 1 }) with he3
    have hagent : (MH.ensure_weaker_monster (MH.retaliate e3)).agent =
        (MH.retaliate e3).agent := MH_ensure_agent _
    have hapos : MH.apos (MH.ensure_weaker_monster (MH.retaliate e3)) = MH.apos e3 := by
      unfold MH.apos
      rw [hagent]
      have := MH_retaliate_apos e3
      unfold MH.apos at this
      rw [this]
    rcases h with ⟨pm, hpm, hfront⟩
    rcases MH_ensure_monsters_shape (MH.retaliate e3) pm hpm with
      ⟨pm0, hpm0, hk, hr, hc, hf⟩
    rw [MH_retaliate_monsters] at hpm0
    have hfront0 : padd (pm0.2.r, pm0.2.c) pm0.2.facing.vec = MH.apos e3 := by
      rw [← hr, ← hc, ← hf, hfront, hapos]
    rw [hagent]
    exact MH_retaliate_dead e3 ⟨pm0, hpm0, hfront0⟩
  · intro h
    unfold AS1.step at h ⊢
    dsimp only at h ⊢
    set e3 := AS1.execute (AS1.rotateAll { env' with turn := env'.turn + 1 }) with he3
    by_cases halive : e3.agent.alive = true
    · rw [if_pos halive] at h ⊢
      rcases h with ⟨pm, hpm, hfront⟩
      by_cases hany : (e3.monsters.any fun pm =>
          decide (padd (pm.2.r, pm.2.c) pm.2.facing.vec = AS1.apos e3)) = true
      · unfold AS1.retaliate
        rw [if_pos hany]
      · exfalso
        apply hany
        unfold AS1.retaliate at hpm hfront
        rw [if_neg hany] at hpm hfront
        exact List.any_eq_true.2 ⟨pm, hpm, by simpa using hfront⟩
    · rw [if_neg halive] at h ⊢
      exact Bool.not_eq_true _ ▸ (Bool.eq_false_iff.2 halive)

/-- C3 (witness): a monster facing the agent's cell at the end of a concrete
step leaves the agent dead. -/
theorem C3_step_lethality_witness : (MH.step exRet).agent.alive = false :=
  (C3_step_lethality exRet exAS).1 (by decide)

/-! ### C9 — the weaker-monster invariant -/

theorem foldl_min_le_init (f : Pos × Monster → Nat) :
    ∀ (l : List (Pos × Monster)) (a : Nat),
      l.foldl (fun acc q => Nat.min acc (f q)) a ≤ a := by
  intro l
  induction l with
  | nil => intro a; exact le_refl a
  | cons hd tl ih =>
    intro a
    exact le_trans (ih (Nat.min a (f hd))) (Nat.min_le_left _ _)

theorem foldl_min_attained (f : Pos × Monster → Nat) :
    ∀ (l : List (Pos × Monster)) (a : Nat),
      l.foldl (fun acc q => Nat.min acc (f q)) a = a ∨
      ∃ pm ∈ l, l.foldl (fun acc q => Nat.min acc (f q)) a = f pm := by
  intro l
  induction l with
  | nil => intro a; exact Or.inl rfl
  | cons hd tl ih =>
    intro a
    simp only [List.foldl]
    rcases ih (Nat.min a (f hd)) with h | ⟨pm, hpm, he⟩
    · rcases Nat.le_total a (f hd) with hle | hle
      · exact Or.inl (by rw [h]; exact Nat.min_eq_left hle)
      · exact Or.inr ⟨hd, List.mem_cons_self _ _, by rw [h]; exact Nat.min_eq_right hle⟩
    · exact Or.inr ⟨pm, List.mem_cons_of_mem _ hpm, he⟩

theorem MH_minMonsterLevel_attained (l : List (Pos × Monster)) (h : l ≠ []) :
    ∃ pm ∈ l, pm.2.level = MH.minMonsterLevel l := by
  cases l with
  | nil => exact absurd rfl h
  | cons hd tl =>
    unfold MH.minMonsterLevel
    rcases foldl_min_attained (fun q => q.2.level) tl hd.2.level with he | ⟨pm, hpm, he⟩
    · exact ⟨hd, List.mem_cons_self _ _, he.symm⟩
    · exact ⟨pm, List.mem_cons_of_mem _ hpm, he.symm⟩

theorem MH_setWeakest_hit (t n : Nat) :
    ∀ l : List (Pos × Monster), (∃ pm ∈ l, pm.2.level = t) →
      ∃ pm ∈ MH.setWeakest t n l, pm.2.level = n := by
  intro l
  induction l with
  | nil => rintro ⟨pm, hpm, _⟩; cases hpm
  | cons hd tl ih =>
    rintro ⟨pm, hpm, he⟩
    unfold MH.setWeakest
    split
    · exact ⟨_, List.mem_cons_self _ _, rfl⟩
    · rename_i hne
      rcases List.mem_cons.1 hpm with rfl | h1
      · exact absurd he hne
      · rcases ih ⟨pm, h1, he⟩ with ⟨pm', hpm', he'⟩
        exact ⟨pm', List.mem_cons_of_mem _ hpm', he'⟩

theorem MH_ensure_weaker (e : MH.Env) (h1 : 1 ≤ e.agent.level)
    (hne : (MH.ensure_weaker_monster e).monsters ≠ []) :
    ∃ pm ∈ (MH.ensure_weaker_monster e).monsters,
      pm.2.level ≤ (MH.ensure_weaker_monster e).agent.level := by
  have hag := MH_ensure_agent e
  unfold MH.ensure_weaker_monster at hne ⊢
  split at hne
  · rename_i hempty
    exact absurd hempty (by simpa using hne)
  · rename_i hd tl hcons
    split
    · rename_i hlt
      dsimp only
      have hmax : Nat.max 1 e.agent.level = e.agent.level := Nat.max_eq_right h1
      rcases MH_setWeakest_hit (MH.minMonsterLevel e.monsters) (Nat.max 1 e.agent.level)
          e.monsters (MH_minMonsterLevel_attained e.monsters (by rw [hcons]; simp))
        with ⟨pm, hpm, he⟩
      exact ⟨pm, hpm, by rw [he, hmax]⟩
    · rename_i hge
      push_neg at hge
      rcases MH_minMonsterLevel_attained e.monsters (by rw [hcons]; simp)
        with ⟨pm, hpm, he⟩
      exact ⟨pm, hpm, by rw [he]; exact hge⟩

/-- C9: in `monster_hunt.py`, whenever the agent's level is at least 1 (true in
every reachable state), the state after `ensure_weaker_monster` — and hence the
state at the end of construction and after every `step()` — has, if any
monsters remain, at least one monster of level at most the agent's level:
`ensure_weaker_monster` rewrites the first weakest monster's level to
`max(1, agent.level)` when all monsters outrank the agent. -/
theorem C9_weaker_monster (env : MH.Env) (h1 : 1 ≤ env.agent.level) :
    ((MH.ensure_weaker_monster env).monsters ≠ [] →
      ∃ pm ∈ (MH.ensure_weaker_monster env).monsters,
        pm.2.level ≤ (MH.ensure_weaker_monster env).agent.level) ∧
    ((MH.step env).monsters ≠ [] →
      ∃ pm ∈ (MH.step env).monsters, pm.2.level ≤ (MH.step env).agent.level) := by
  constructor
  · exact fun hne => MH_ensure_weaker env h1 hne
  · intro hne
    unfold MH.step at hne ⊢
    apply MH_ensure_weaker
    · rw [MH_retaliate_agent_level]
      have h := MH_execute_level_mono (MH.rotateAll { env with turn := env.turn + 1 })
      have h2 : (MH.rotateAll { env with turn := env.turn + 1 }).agent = env.agent := rfl
      rw [h2] at h
      exact le_trans h1 h
    · exact hne

/-- C9 (witness): a concrete post-step state still contains a beatable monster. -/
theorem C9_weaker_monster_witness :
    (MH.step exRet).monsters ≠ [] ∧
    ∃ pm ∈ (MH.step exRet).monsters, pm.2.level ≤ (MH.step exRet).agent.level :=
  ⟨by decide, (C9_weaker_monster exRet (by decide)).2 (by decide)⟩

/-! ### C10 — frame: monsters never move -/

theorem removeKey_subset (p : Pos) :
    ∀ l : List (Pos × Monster), ∀ pm ∈ removeKey p l, pm ∈ l := by
  intro l
  induction l with
  | nil => intro pm h; cases h
  | cons hd tl ih =>
    intro pm h
    unfold removeKey at h
    split at h
    · exact List.mem_cons_of_mem _ h
    · rcases List.mem_cons.1 h with rfl | h1
      · exact List.mem_cons_self _ _
      · exact List.mem_cons_of_mem _ (ih pm h1)

theorem mkeys_removeKey (p : Pos) :
    ∀ l : List (Pos × Monster), mkeys (removeKey p l) = (mkeys l).erase p := by
  intro l
  induction l with
  | nil => rfl
  | cons hd tl ih =>
    unfold removeKey
    split
    · rename_i he
      simp only [mkeys, List.map_cons, List.erase_cons]
      rw [if_pos (by simpa using he)]
    · rename_i he
      simp only [mkeys, List.map_cons, List.erase_cons]
      rw [if_neg (by simpa using he)]
      simp only [mkeys] at ih
      rw [ih]

theorem mkeys_rotateAll (e : MH.Env) : mkeys (MH.rotateAll e).monsters = mkeys e.monsters := by
  unfold MH.rotateAll mkeys
  simp

theorem mkeys_setWeakest (t n : Nat) :
    ∀ l : List (Pos × Monster), mkeys (MH.setWeakest t n l) = mkeys l := by
  intro l
  induction l with
  | nil => rfl
  | cons hd tl ih =>
    unfold MH.setWeakest
    split
    · simp [mkeys]
    · simp only [mkeys, List.map_cons]
      simp only [mkeys] at ih
      rw [ih]

theorem mkeys_ensure (e : MH.Env) :
    mkeys (MH.ensure_weaker_monster e).monsters = mkeys e.monsters := by
  unfold MH.ensure_weaker_monster
  split
  · rfl
  · split
    · exact mkeys_setWeakest _ _ _
    · rfl

theorem removeKey_of_lookup_none {p : Pos} :
    ∀ {l : List (Pos × Monster)}, List.lookup p l = none → removeKey p l = l := by
  intro l
  induction l with
  | nil => intro _; rfl
  | cons hd tl ih =>
    intro h
    have hne : p ≠ hd.1 := by
      intro he
      rw [List.lookup] at h
      rw [show (p == hd.1) = true by simp [he]] at h
      cases h
    have htl : List.lookup p tl = none := by
      rw [List.lookup, show (p == hd.1) = false by simp [hne]] at h
      exact h
    unfold removeKey
    rw [if_neg (fun he => hne he.symm), ih htl]

theorem MH_execute_monsters (env : MH.Env) :
    (MH.execute env).monsters =
      match MH.plan_decision env with
      | Act.attack p => removeKey p env.monsters
      | _ => env.monsters := by
  unfold MH.execute
  dsimp only
  cases MH.plan_decision env with
  | wait => rfl
  | move d => rfl
  | attack p =>
    dsimp only
    cases hlk : List.lookup p env.monsters with
    | none =>
      dsimp only
      rw [removeKey_of_lookup_none hlk]
    | some mon =>
      dsimp only
      split <;> rfl

theorem MH_step_monsters_shape (env : MH.Env) :
    ∀ pm ∈ (MH.step env).monsters, ∃ m0 : Monster,
      (pm.1, m0) ∈ env.monsters ∧ pm.2.r = m0.r ∧ pm.2.c = m0.c := by
  intro pm hpm
  unfold MH.step at hpm
  rcases MH_ensure_monsters_shape _ pm hpm with ⟨pm1, hpm1, hk1, hr1, hc1, _⟩
  rw [MH_retaliate_monsters] at hpm1
  rw [MH_execute_monsters] at hpm1
  have hpm2 : pm1 ∈ (MH.rotateAll { env with turn := env.turn + 1 }).monsters := by
    revert hpm1
    split
    · exact fun h => removeKey_subset _ _ pm1 h
    · exact fun h => h
  unfold MH.rotateAll at hpm2
  dsimp only at hpm2
  rcases List.mem_map.1 hpm2 with ⟨pm0, hpm0, he⟩
  refine ⟨pm0.2, ?_, ?_, ?_⟩
  · rw [hk1, ← he]
    dsimp only
    simpa using hpm0
  · rw [hr1, ← he]
    show (rotate_if_needed pm0.2).r = pm0.2.r
    unfold rotate_if_needed
    dsimp only
    split <;> rfl
  · rw [hc1, ← he]
    show (rotate_if_needed pm0.2).c = pm0.2.c
    unfold rotate_if_needed
    dsimp only
    split <;> rfl

/-- C10: monsters never move.  `rotate_if_needed` never changes a monster's
position or level; every monster present after a `step()` of `monster_hunt.py`
sits at the position of a monster of the initial state (at the same table key);
and the key set of the monster table changes across a step exactly by removal of
the attacked position when the planned action is an ATTACK, and not at all
otherwise. -/
theorem C10_monsters_never_move (env : MH.Env) :
    (∀ m : Monster, (rotate_if_needed m).r = m.r ∧ (rotate_if_needed m).c = m.c ∧
      (rotate_if_needed m).level = m.level) ∧
    (∀ pm ∈ (MH.step env).monsters, ∃ m0 : Monster,
      (pm.1, m0) ∈ env.monsters ∧ pm.2.r = m0.r ∧ pm.2.c = m0.c) ∧
    (match MH.plan_decision (MH.rotateAll { env with turn := env.turn + 1 }) with
     | Act.attack p => mkeys (MH.step env).monsters = (mkeys env.monsters).erase p
     | _ => mkeys (MH.step env).monsters = mkeys env.monsters) := by
  refine ⟨?_, MH_step_monsters_shape env, ?_⟩
  · intro m
    unfold rotate_if_needed
    dsimp only
    refine ⟨?_, ?_, ?_⟩ <;> (split <;> rfl)
  · have hkeys : mkeys (MH.step env).monsters =
        mkeys (MH.execute (MH.rotateAll { env with turn := env.turn + 1 })).monsters := by
      unfold MH.step
      rw [mkeys_ensure]
      rw [MH_retaliate_monsters]
    rw [hkeys, MH_execute_monsters]
    cases MH.plan_decision (MH.rotateAll { env with turn := env.turn + 1 }) with
    | wait => exact mkeys_rotateAll _
    | move d => exact mkeys_rotateAll _
    | attack p =>
      dsimp only
      rw [mkeys_removeKey, mkeys_rotateAll]

/-- C10 (witness): concrete instantiation of the per-monster position frame. -/
theorem C10_monsters_never_move_witness :
    ∃ m0 : Monster, (((2:Int), (0:Int)), m0) ∈ exRet.monsters ∧
      (2:Int) = m0.r ∧ (0:Int) = m0.c := by
  have h := (C10_monsters_never_move exRet).2.1
  have hmem : (((2:Int), (0:Int)), mkM 2 0 1 Dir.N 1) ∈ (MH.step exRet).monsters := by decide
  rcases h _ hmem with ⟨m0, hm0, hr, hc⟩
  exact ⟨m0, hm0, hr, hc⟩

/-! ### Path algebra -/

theorem applyPath_append (a : Pos) (xs ys : List Dir) :
    applyPath a (xs ++ ys) = applyPath (applyPath a xs) ys := by
  induction xs generalizing a with
  | nil => rfl
  | cons d ds ih =>
    simp only [List.cons_append, applyPath]
    exact ih _

theorem pathOk_append (R C : Int) (F : List Pos) (a : Pos) (xs ys : List Dir) :
    pathOk R C F a (xs ++ ys) =
      (pathOk R C F a xs && pathOk R C F (applyPath a xs) ys) := by
  induction xs generalizing a with
  | nil => simp [pathOk, applyPath]
  | cons d ds ih =>
    simp only [List.cons_append, pathOk, applyPath]
    rw [show (ds.append ys) = ds ++ ys from rfl, ih, Bool.and_assoc]

/-! ### A* heap pop lemmas -/

theorem findMin_mem (l : List AEntry) (b : AEntry) :
    findMin b l = b ∨ findMin b l ∈ l := by
  induction l generalizing b with
  | nil => exact Or.inl rfl
  | cons x xs ih =>
    unfold findMin
    split
    · rcases ih x with h | h
      · exact Or.inr (by rw [h]; exact List.mem_cons_self _ _)
      · exact Or.inr (List.mem_cons_of_mem _ h)
    · rcases ih b with h | h
      · exact Or.inl h
      · exact Or.inr (List.mem_cons_of_mem _ h)

theorem popMin_mem {l : List AEntry} {e : AEntry} {rest : List AEntry}
    (h : popMin l = some (e, rest)) : e ∈ l ∧ rest = l.erase e := by
  cases l with
  | nil => cases h
  | cons hd tl =>
    unfold popMin at h
    dsimp only at h
    cases h
    constructor
    · rcases findMin_mem tl hd with h | h
      · rw [h]; exact List.mem_cons_self _ _
      · exact List.mem_cons_of_mem _ h
    · rfl

/-! ### A* soundness: returned paths are valid -/

theorem arelax_heap_valid (R C : Int) (blocked dangerous : List Pos) (goal : Pos)
    (visited : List Pos) (base : Pos) (bpath : List Dir) (gb : Nat) (start : Pos)
    (hbase : pathOk R C (blocked ++ dangerous) start bpath = true ∧
      applyPath start bpath = base) :
    ∀ (ds : List Dir) (heap : List AEntry) (gs : List (Pos × Nat)) (cnt : Nat),
      (∀ x ∈ heap, pathOk R C (blocked ++ dangerous) start x.path = true ∧
        applyPath start x.path = x.pos) →
      ∀ x ∈ (arelax R C blocked dangerous goal visited base bpath gb ds heap gs cnt).1,
        pathOk R C (blocked ++ dangerous) start x.path = true ∧
          applyPath start x.path = x.pos := by
  intro ds
  induction ds with
  | nil => intro heap gs cnt hh x hx; exact hh x hx
  | cons d rest ih =>
    intro heap gs cnt hh x hx
    unfold arelax at hx
    dsimp only at hx
    split at hx
    · rename_i hcond
      split at hx
      · refine ih _ _ _ ?_ x hx
        intro y hy
        rcases List.mem_append.1 hy with hy1 | hy1
        · exact hh y hy1
        · rcases List.mem_singleton.1 hy1 with rfl
          dsimp only
          constructor
          · rw [pathOk_append, hbase.1, hbase.2]
            simp only [pathOk, Bool.and_true, Bool.true_and]
            have h1 : inB R C (padd base d.vec) = true := by
              simp only [Bool.and_eq_true] at hcond
              exact hcond.1.1.1
            have h2 : ¬ padd base d.vec ∈ blocked := by
              simp only [Bool.and_eq_true] at hcond
              have := hcond.1.2
              simpa using this
            have h3 : ¬ padd base d.vec ∈ dangerous := by
              simp only [Bool.and_eq_true] at hcond
              have := hcond.2
              simpa using this
            unfold okCell
            rw [h1]
            simp only [Bool.true_and, Bool.not_eq_eq_eq_not, Bool.not_true,
              List.contains_eq_any_beq]
            rw [Bool.eq_false_iff]
            intro hany
            rcases List.any_eq_true.1 hany with ⟨z, hz, hzz⟩
            rcases List.mem_append.1 hz with hz1 | hz1
            · exact h2 ((beq_iff_eq.1 hzz) ▸ hz1)
            · exact h3 ((beq_iff_eq.1 hzz) ▸ hz1)
          · rw [applyPath_append, hbase.2]
            rfl
      · exact ih _ _ _ hh x hx
    · exact ih _ _ _ hh x hx

theorem astarAux_sound (R C : Int) (blocked dangerous : List Pos) (goal start : Pos) :
    ∀ (fuel : Nat) (heap : List AEntry) (gs : List (Pos × Nat)) (visited : List Pos)
      (cnt : Nat),
      (∀ x ∈ heap, pathOk R C (blocked ++ dangerous) start x.path = true ∧
        applyPath start x.path = x.pos) →
      pathOk R C (blocked ++ dangerous) start
        (astarAux R C blocked dangerous goal fuel heap gs visited cnt) = true := by
  intro fuel
  induction fuel with
  | zero => intro heap gs visited cnt _; rfl
  | succ n ih =>
    intro heap gs visited cnt hh
    unfold astarAux
    cases hpop : popMin heap with
    | none => rfl
    | some pr =>
      rcases pr with ⟨e, rest⟩
      rcases popMin_mem hpop with ⟨hmem, hrest⟩
      have hrest_valid : ∀ x ∈ rest, pathOk R C (blocked ++ dangerous) start x.path = true ∧
          applyPath start x.path = x.pos := by
        intro x hx
        exact hh x (List.erase_subset _ _ (hrest ▸ hx))
      dsimp only
      split
      · exact ih rest _ _ _ hrest_valid
      · split
        · exact (hh e hmem).1
        · exact ih _ _ _ _ (arelax_heap_valid R C blocked dangerous goal _ _ _ _ start
            ⟨(hh e hmem).1, (hh e hmem).2⟩ allDirs rest _ cnt hrest_valid)

theorem astar_sound (R C : Int) (blocked dangerous : List Pos) (start goal : Pos) :
    pathOk R C (blocked ++ dangerous) start (astar R C blocked dangerous start goal) = true := by
  unfold astar
  apply astarAux_sound
  intro x hx
  rcases List.mem_singleton.1 hx with rfl
  exact ⟨rfl, rfl⟩

/-! ### C2 — lethal-cell avoidance on MOVE -/

/-- C2 (counterexample): in the concrete `monster_hunt.py` state `exC2` the
planner returns MOVE South, yet the destination cell (1,0) is currently
dangerous — it is the cell directly ahead of the level-9 monster at (2,0)
facing north.  `monster_hunt.py`'s BFS filters only monster-occupied cells, not
dangerous cells. -/
theorem C2_counterexample :
    MH.plan_decision exC2 = Act.move Dir.S ∧
    padd (MH.apos exC2) Dir.S.vec ∈ MH.dangerCells exC2 := by
  constructor
  · decide
  · decide

/-- C2 (amended): in `AStar1.py` the property holds — whenever `plan_action`
returns MOVE(d), the destination cell is in bounds, not monster-occupied and
not currently dangerous, because `astar` refuses to step into blocked or
dangerous cells. -/
theorem C2_no_lethal_move (env : AS1.Env) (d : Dir)
    (h : AS1.plan_decision env = Act.move d) :
    padd (AS1.apos env) d.vec ∉ AS1.dangerous_positions env ∧
    padd (AS1.apos env) d.vec ∉ AS1.blocked_positions env ∧
    inB env.R env.C (padd (AS1.apos env) d.vec) = true := by
  unfold AS1.plan_decision at h
  cases hf : (AS1.targetsSorted env).findSome? (fun t => AS1.tryTarget env t.2.2) with
  | none => rw [hf] at h; cases h
  | some a =>
    rw [hf] at h
    simp only [Option.getD] at h
    subst h
    rcases findSome?_eq_some_imp hf with ⟨t, _, htt⟩
    unfold AS1.tryTarget at htt
    dsimp only at htt
    split at htt
    · cases htt
    · revert htt
      split
      · intro htt; cases htt
      · intro htt
        rcases findSome?_eq_some_imp htt with ⟨spot, _, hsp⟩
        revert hsp
        cases hpath : astar env.R env.C (AS1.blocked_positions env)
            (AS1.dangerous_positions env) (AS1.apos env) spot with
        | nil => intro hsp; cases hsp
        | cons d0 tail =>
          intro hsp
          cases hsp
          have hsound := astar_sound env.R env.C (AS1.blocked_positions env)
            (AS1.dangerous_positions env) (AS1.apos env) spot
          rw [hpath] at hsound
          simp only [pathOk, Bool.and_eq_true] at hsound
          have hok := hsound.1
          unfold okCell at hok
          simp only [Bool.and_eq_true, Bool.not_eq_eq_eq_not, Bool.not_true] at hok
          have hnm : padd (AS1.apos env) d.vec ∉
              (AS1.blocked_positions env ++ AS1.dangerous_positions env) := by
            have h2 := hok.2
            simpa using h2
          refine ⟨?_, ?_, hok.1⟩
          · intro hmem
            exact hnm (List.mem_append.2 (Or.inr hmem))
          · intro hmem
            exact hnm (List.mem_append.2 (Or.inl hmem))

/-- C2 (witness): in the concrete `AStar1.py` state `exAS` the agent moves
south, and the destination is not dangerous. -/
theorem C2_no_lethal_move_witness :
    AS1.plan_decision exAS = Act.move Dir.S ∧
    padd (AS1.apos exAS) Dir.S.vec ∉ AS1.dangerous_positions exAS :=
  ⟨by decide, (C2_no_lethal_move exAS Dir.S (by decide)).1⟩

/-! ### C1 — search correctness.  Part 1: grid counting infrastructure -/

theorem mem_allDirs (d : Dir) : d ∈ allDirs := by
  cases d <;> decide

theorem nodup_allDirs : allDirs.Nodup := by decide

theorem vec_injective : ∀ d₁ d₂ : Dir, d₁.vec = d₂.vec → d₁ = d₂ := by
  intro d₁ d₂ h
  cases d₁ <;> cases d₂ <;> first
  | rfl
  | simp [Dir.vec] at h

theorem padd_vec_injective (p : Pos) {d₁ d₂ : Dir}
    (h : padd p d₁.vec = padd p d₂.vec) : d₁ = d₂ := by
  apply vec_injective
  unfold padd at h
  have h1 := congrArg Prod.fst h
  have h2 := congrArg Prod.snd h
  dsimp at h1 h2
  rcases hd1 : d₁.vec with ⟨a1, b1⟩
  rcases hd2 : d₂.vec with ⟨a2, b2⟩
  rw [hd1, hd2] at h1 h2
  dsimp at h1 h2
  have : a1 = a2 := by omega
  have : b1 = b2 := by omega
  simp_all

/-- All in-bounds cells of an `R × C` grid, row-major. -/
def gridCells (R C : Int) : List Pos :=
  ((List.range R.toNat).map
    (fun i : Nat =>
      (List.range C.toNat).map (fun j : Nat => ((i : Int), (j : Int))))).flatten

theorem length_gridCells (R C : Int) :
    (gridCells R C).length = R.toNat * C.toNat := by
  unfold gridCells
  rw [List.length_flatten]
  rw [List.map_map]
  have : ((List.range R.toNat).map
      (List.length ∘ fun i : Nat =>
        (List.range C.toNat).map (fun j : Nat => ((i : Int), (j : Int))))) =
      (List.range R.toNat).map (fun _ => C.toNat) := by
    apply List.map_congr_left
    intro i _
    simp
  rw [this]
  rw [List.map_const']
  simp [Nat.mul_comm]

theorem mem_gridCells {R C : Int} {p : Pos} :
    p ∈ gridCells R C ↔ inB R C p = true := by
  unfold gridCells inB
  rw [List.mem_flatten]
  constructor
  · rintro ⟨row, hrow, hp⟩
    rcases List.mem_map.1 hrow with ⟨i, hi, rfl⟩
    rcases List.mem_map.1 hp with ⟨j, hj, rfl⟩
    rw [List.mem_range] at hi hj
    simp only [Bool.and_eq_true, decide_eq_true_eq]
    refine ⟨⟨⟨?_, ?_⟩, ?_⟩, ?_⟩ <;> dsimp <;> omega
  · intro h
    simp only [Bool.and_eq_true, decide_eq_true_eq] at h
    obtain ⟨⟨⟨h1, h2⟩, h3⟩, h4⟩ := h
    refine ⟨(List.range C.toNat).map (fun j : Nat => ((p.1.toNat : Int), (j : Int))), ?_, ?_⟩
    · exact List.mem_map.2 ⟨p.1.toNat, List.mem_range.2 (by omega), rfl⟩
    · refine List.mem_map.2 ⟨p.2.toNat, List.mem_range.2 (by omega), ?_⟩
      rcases p with ⟨p1, p2⟩
      dsimp at h1 h3 ⊢
      rw [Int.toNat_of_nonneg h1, Int.toNat_of_nonneg h3]

theorem nodup_gridCells (R C : Int) : (gridCells R C).Nodup := by
  unfold gridCells
  rw [List.nodup_flatten]
  constructor
  · intro l hl
    rcases List.mem_map.1 hl with ⟨i, _, rfl⟩
    refine List.Nodup.map ?_ (List.nodup_range _)
    intro a b hab
    simpa using congrArg Prod.snd hab
  · rw [List.pairwise_map]
    refine (List.nodup_range _).pairwise_of_forall_ne ?_
    intro i hi j hj hij
    rw [List.disjoint_left]
    rintro p hp1 hp2
    rcases List.mem_map.1 hp1 with ⟨a, _, rfl⟩
    rcases List.mem_map.1 hp2 with ⟨b, _, he⟩
    have := congrArg Prod.fst he
    dsimp at this
    exact hij (by omega)

theorem visited_card_le {R C : Int} {start : Pos} {visited : List Pos}
    (hnd : visited.Nodup) (hsub : ∀ v ∈ visited, v = start ∨ inB R C v = true) :
    visited.length ≤ R.toNat * C.toNat + 1 := by
  have hsub2 : visited ⊆ start :: gridCells R C := by
    intro v hv
    rcases hsub v hv with rfl | h
    · exact List.mem_cons_self _ _
    · exact List.mem_cons_of_mem _ (mem_gridCells.2 h)
  have := (hnd.subperm hsub2).length_le
  simpa [length_gridCells] using this

/-! ### C1 part 2: characterising one BFS expansion -/

/-- The directions of `ds` whose neighbour of `p` is acceptable (in bounds,
unvisited, unblocked). -/
def goodDirs (R C : Int) (forb : List Pos) (p : Pos) (visited : List Pos)
    (ds : List Dir) : List Dir :=
  ds.filter (fun d => inB R C (padd p d.vec) && !(visited.contains (padd p d.vec)) &&
    !(forb.contains (padd p d.vec)))

theorem bexpand_eq (R C : Int) (forb : List Pos) (p : Pos) (path : List Dir) :
    ∀ (ds : List Dir), ds.Nodup →
    ∀ (q : List BEntry) (visited : List Pos),
      bexpand R C forb p path ds q visited =
        (q ++ (goodDirs R C forb p visited ds).map (fun d => (padd p d.vec, path ++ [d])),
         ((goodDirs R C forb p visited ds).map (fun d => padd p d.vec)).reverse ++ visited) := by
  intro ds
  induction ds with
  | nil => intro _ q visited; simp [bexpand, goodDirs]
  | cons d rest ih =>
    intro hnd q visited
    rw [List.nodup_cons] at hnd
    unfold bexpand goodDirs
    dsimp only
    rw [List.filter_cons]
    by_cases hcond : (inB R C (padd p d.vec) && !(visited.contains (padd p d.vec)) &&
        !(forb.contains (padd p d.vec))) = true
    · rw [if_pos hcond, hcond, if_pos rfl]
      rw [ih hnd.2 (q ++ [(padd p d.vec, path ++ [d])]) (padd p d.vec :: visited)]
      have hgood : goodDirs R C forb p (padd p d.vec :: visited) rest =
          goodDirs R C forb p visited rest := by
        unfold goodDirs
        apply List.filter_congr
        intro d' hd'
        have hne : padd p d'.vec ≠ padd p d.vec := by
          intro he
          exact hnd.1 (padd_vec_injective p he ▸ hd')
        rw [List.contains_cons]
        rw [show (padd p d'.vec == padd p d.vec) = false by simpa using hne]
        simp
      rw [hgood]
      rw [List.map_cons, List.map_cons, List.reverse_cons, List.append_assoc,
        List.append_assoc]
      rfl
    · rw [if_neg hcond]
      rw [eq_false_of_ne_true hcond]
      rw [if_neg (by simp)]
      rw [ih hnd.2 q visited]
      rfl

/-! ### C1 part 3: the BFS loop invariant -/

theorem contains_true_iff {l : List Pos} {x : Pos} : l.contains x = true ↔ x ∈ l := by
  simp

theorem contains_false_iff {l : List Pos} {x : Pos} : l.contains x = false ↔ x ∉ l := by
  rw [← Bool.not_eq_true, contains_true_iff]

theorem mem_goodDirs {R C : Int} {forb : List Pos} {p : Pos} {visited : List Pos}
    {d : Dir} :
    d ∈ goodDirs R C forb p visited allDirs ↔
      okCell R C forb (padd p d.vec) = true ∧ padd p d.vec ∉ visited := by
  unfold goodDirs
  rw [List.mem_filter]
  unfold okCell
  constructor
  · rintro ⟨_, hc⟩
    simp only [Bool.and_eq_true, Bool.not_eq_eq_eq_not, Bool.not_true] at hc
    refine ⟨?_, contains_false_iff.1 hc.1.2⟩
    rw [hc.1.1]
    simp only [Bool.true_and, Bool.not_eq_eq_eq_not, Bool.not_true]
    exact hc.2
  · rintro ⟨hok, hnv⟩
    simp only [Bool.and_eq_true, Bool.not_eq_eq_eq_not, Bool.not_true] at hok
    refine ⟨mem_allDirs d, ?_⟩
    simp only [Bool.and_eq_true, Bool.not_eq_eq_eq_not, Bool.not_true]
    exact ⟨⟨hok.1, contains_false_iff.2 hnv⟩, hok.2⟩

theorem reachOk_zero {R C : Int} {forb : List Pos} {start x : Pos}
    (h : ReachOk R C forb start x 0) : x = start := by
  rcases h with ⟨ds, hlen, _, happ⟩
  rw [List.length_eq_zero] at hlen
  subst hlen
  exact happ.symm

theorem reachOk_self (R C : Int) (forb : List Pos) (a : Pos) :
    ReachOk R C forb a a 0 := ⟨[], rfl, rfl, rfl⟩

theorem reachOk_succ {R C : Int} {forb : List Pos} {start x : Pos} {k : Nat}
    (h : ReachOk R C forb start x (k + 1)) :
    ∃ y d, ReachOk R C forb start y k ∧ okCell R C forb (padd y (Dir.vec d)) = true ∧
      padd y (Dir.vec d) = x := by
  rcases h with ⟨ds, hlen, hok, happ⟩
  rcases List.eq_nil_or_concat ds with rfl | ⟨ys, dl, rfl⟩
  · cases hlen
  · rw [List.concat_eq_append] at hlen hok happ
    rw [pathOk_append] at hok
    rw [Bool.and_eq_true] at hok
    rcases hok with ⟨hok1, hok2⟩
    simp only [pathOk, Bool.and_eq_true] at hok2
    refine ⟨applyPath start ys, dl, ⟨ys, ?_, hok1, rfl⟩, hok2.1, ?_⟩
    · have := hlen
      simp only [List.length_append, List.length_singleton] at this
      omega
    · rw [applyPath_append] at happ
      simpa [applyPath] using happ

theorem reachOk_step {R C : Int} {forb : List Pos} {start y : Pos} {d : Dir} {k : Nat}
    (h : ReachOk R C forb start y k) (hok : okCell R C forb (padd y d.vec) = true) :
    ReachOk R C forb start (padd y d.vec) (k + 1) := by
  rcases h with ⟨ds, hlen, hpo, happ⟩
  refine ⟨ds ++ [d], by simp [hlen], ?_, ?_⟩
  · rw [pathOk_append, hpo, happ]
    simp [pathOk, hok]
  · rw [applyPath_append, happ]
    rfl

/-- The invariant of the BFS main loop. -/
structure BfsInv (R C : Int) (forb : List Pos) (start goal : Pos)
    (q : List BEntry) (visited : List Pos) : Prop where
  start_vis : start ∈ visited
  entries_valid : ∀ e ∈ q, pathOk R C forb start e.2 = true ∧ applyPath start e.2 = e.1
  entries_min : ∀ e ∈ q, ∀ m, ReachOk R C forb start e.1 m → e.2.length ≤ m
  qpos_vis : ∀ e ∈ q, e.1 ∈ visited
  mono : List.Pairwise (fun a b : BEntry => a.2.length ≤ b.2.length) q
  within : ∀ a ∈ q, ∀ b ∈ q, a.2.length ≤ b.2.length + 1
  vis_reach : ∀ v ∈ visited, ∃ m, ReachOk R C forb start v m
  vis_q_or_done : ∀ v ∈ visited, (∃ pth, (v, pth) ∈ q) ∨
      ((∀ d : Dir, okCell R C forb (padd v d.vec) = true → padd v d.vec ∈ visited) ∧
        v ≠ goal)
  frontier : ∀ x m, ReachOk R C forb start x m → (∀ e ∈ q, m < e.2.length) →
      x ∈ visited ∧
        ∀ d : Dir, okCell R C forb (padd x d.vec) = true → padd x d.vec ∈ visited
  vis_nodup : visited.Nodup
  vis_sub : ∀ v ∈ visited, v = start ∨ inB R C v = true

theorem bfsInv_empty_no_reach {R C : Int} {forb : List Pos} {start goal : Pos}
    {visited : List Pos} (inv : BfsInv R C forb start goal [] visited) {m : Nat}
    (h : ReachOk R C forb start goal m) : False := by
  have hf := inv.frontier goal m h (by intro e he; cases he)
  rcases inv.vis_q_or_done goal hf.1 with ⟨pth, hmem⟩ | ⟨_, hne⟩
  · cases hmem
  · exact hne rfl

theorem bfs_new_min {R C : Int} {forb : List Pos} {start goal p : Pos}
    {path : List Dir} {rest : List BEntry} {visited : List Pos}
    (inv : BfsInv R C forb start goal ((p, path) :: rest) visited)
    {np : Pos} (hnp : np ∉ visited) :
    ∀ m, ReachOk R C forb start np m → path.length + 1 ≤ m := by
  intro m hm
  by_contra hlt
  push_neg at hlt
  cases m with
  | zero =>
    have h0 := reachOk_zero hm
    exact hnp (h0 ▸ inv.start_vis)
  | succ k =>
    rcases reachOk_succ hm with ⟨y, d, hy, hok, he⟩
    have hb : ∀ e ∈ (p, path) :: rest, k < e.2.length := by
      intro e he'
      rcases List.mem_cons.1 he' with rfl | hmem
      · dsimp; omega
      · have h1 := List.rel_of_pairwise_cons inv.mono hmem
        dsimp at h1
        omega
    have hfr := inv.frontier y k hy hb
    exact hnp (he ▸ hfr.2 d hok)

theorem bfsInv_step {R C : Int} {forb : List Pos} {start goal : Pos}
    {p : Pos} {path : List Dir} {rest : List BEntry} {visited : List Pos}
    (inv : BfsInv R C forb start goal ((p, path) :: rest) visited)
    (hp : p ≠ goal) :
    BfsInv R C forb start goal
      (rest ++ (goodDirs R C forb p visited allDirs).map
        (fun d => (padd p d.vec, path ++ [d])))
      (((goodDirs R C forb p visited allDirs).map (fun d => padd p d.vec)).reverse ++
        visited) := by
  have hvalid_head := inv.entries_valid (p, path) (List.mem_cons_self _ _)
  dsimp only at hvalid_head
  have hmem_vis' : ∀ x : Pos,
      (x ∈ ((goodDirs R C forb p visited allDirs).map
        (fun d => padd p d.vec)).reverse ++ visited) ↔
      x ∈ visited ∨
        x ∈ (goodDirs R C forb p visited allDirs).map (fun d => padd p d.vec) := by
    intro x
    rw [List.mem_append, List.mem_reverse]
    tauto
  have hlen_newE : ∀ e ∈ (goodDirs R C forb p visited allDirs).map
      (fun d => (padd p d.vec, path ++ [d])), e.2.length = path.length + 1 := by
    intro e he
    rcases List.mem_map.1 he with ⟨d, _, rfl⟩
    simp
  have hrest_le : ∀ e ∈ rest, path.length ≤ e.2.length := by
    intro e he
    exact List.rel_of_pairwise_cons inv.mono he
  have hall_le : ∀ e ∈ rest, e.2.length ≤ path.length + 1 := by
    intro e he
    exact inv.within e (List.mem_cons_of_mem _ he) (p, path) (List.mem_cons_self _ _)
  have hprocessed_p : ∀ d : Dir, okCell R C forb (padd p d.vec) = true →
      padd p d.vec ∈ ((goodDirs R C forb p visited allDirs).map
        (fun d => padd p d.vec)).reverse ++ visited := by
    intro d hok
    by_cases hv : padd p d.vec ∈ visited
    · exact (hmem_vis' _).2 (Or.inl hv)
    · exact (hmem_vis' _).2 (Or.inr (List.mem_map.2 ⟨d, mem_goodDirs.2 ⟨hok, hv⟩, rfl⟩))
  have hnewP_prop : ∀ x ∈ (goodDirs R C forb p visited allDirs).map
      (fun d => padd p d.vec),
      ∃ d : Dir, okCell R C forb (padd p d.vec) = true ∧ padd p d.vec ∉ visited ∧
        x = padd p d.vec := by
    intro x hx
    rcases List.mem_map.1 hx with ⟨d, hd, rfl⟩
    rcases mem_goodDirs.1 hd with ⟨hok, hnv⟩
    exact ⟨d, hok, hnv, rfl⟩
  have hreach_p : ReachOk R C forb start p path.length :=
    ⟨path, rfl, hvalid_head.1, hvalid_head.2⟩
  have hfrontier : ∀ x m, ReachOk R C forb start x m →
      (∀ e ∈ rest ++ (goodDirs R C forb p visited allDirs).map
        (fun d => (padd p d.vec, path ++ [d])), m < e.2.length) →
      (x ∈ ((goodDirs R C forb p visited allDirs).map
        (fun d => padd p d.vec)).reverse ++ visited) ∧
        ∀ d : Dir, okCell R C forb (padd x d.vec) = true →
          padd x d.vec ∈ ((goodDirs R C forb p visited allDirs).map
            (fun d => padd p d.vec)).reverse ++ visited := by
    intro x m
    induction m using Nat.strong_induction_on generalizing x with
    | _ m IH =>
      intro hreach hbound
      by_cases hxp : x = p
      · subst hxp
        exact ⟨(hmem_vis' _).2 (Or.inl (inv.qpos_vis _ (List.mem_cons_self _ _))),
          hprocessed_p⟩
      · by_cases hq' : rest ++ (goodDirs R C forb p visited allDirs).map
            (fun d => (padd p d.vec, path ++ [d])) = []
        · rcases List.append_eq_nil.1 hq' with ⟨hrest0, hnewE0⟩
          have hG0 : goodDirs R C forb p visited allDirs = [] :=
            List.map_eq_nil_iff.1 hnewE0
          have hvis'_eq : ((goodDirs R C forb p visited allDirs).map
              (fun d => padd p d.vec)).reverse ++ visited = visited := by
            rw [hG0]
            rfl
          rw [hvis'_eq]
          have hxvis : x ∈ visited := by
            cases m with
            | zero => exact (reachOk_zero hreach) ▸ inv.start_vis
            | succ k =>
              rcases reachOk_succ hreach with ⟨y, d, hy, hok, he⟩
              have hIH := IH k (Nat.lt_succ_self k) y hy
                (by intro e he'; rw [hq'] at he'; cases he')
              rw [hvis'_eq] at hIH
              exact he ▸ hIH.2 d hok
          rcases inv.vis_q_or_done x hxvis with ⟨pth, hmem⟩ | ⟨hproc, _⟩
          · rcases List.mem_cons.1 hmem with heq | hmem2
            · injection heq with h1 _
              exact absurd h1 hxp
            · rw [hrest0] at hmem2
              cases hmem2
          · exact ⟨hxvis, hproc⟩
        · have hmlep : m ≤ path.length := by
            rcases List.exists_mem_of_ne_nil _ hq' with ⟨e0, he0⟩
            have h1 := hbound e0 he0
            have h2 : e0.2.length ≤ path.length + 1 := by
              rcases List.mem_append.1 he0 with h | h
              · exact hall_le e0 h
              · rw [hlen_newE e0 h]
            omega
          have hxvis : x ∈ visited := by
            cases m with
            | zero => exact (reachOk_zero hreach) ▸ inv.start_vis
            | succ k =>
              rcases reachOk_succ hreach with ⟨y, d, hy, hok, he⟩
              have hfr := inv.frontier y k hy ?_
              · exact he ▸ hfr.2 d hok
              · intro e he'
                rcases List.mem_cons.1 he' with rfl | hmem
                · dsimp; omega
                · have := hrest_le e hmem
                  omega
          rcases inv.vis_q_or_done x hxvis with ⟨pth, hmem⟩ | ⟨hproc, _⟩
          · rcases List.mem_cons.1 hmem with heq | hmem2
            · injection heq with h1 _
              exact absurd h1 hxp
            · have hb := hbound (x, pth) (List.mem_append.2 (Or.inl hmem2))
              have hm := inv.entries_min (x, pth) (List.mem_cons_of_mem _ hmem2) m hreach
              dsimp at hb hm
              omega
          · exact ⟨(hmem_vis' x).2 (Or.inl hxvis),
              fun d' hok' => (hmem_vis' _).2 (Or.inl (hproc d' hok'))⟩
  refine
    { start_vis := (hmem_vis' _).2 (Or.inl inv.start_vis)
      entries_valid := ?_
      entries_min := ?_
      qpos_vis := ?_
      mono := ?_
      within := ?_
      vis_reach := ?_
      vis_q_or_done := ?_
      frontier := hfrontier
      vis_nodup := ?_
      vis_sub := ?_ }
  · intro e he
    rcases List.mem_append.1 he with h | h
    · exact inv.entries_valid e (List.mem_cons_of_mem _ h)
    · rcases List.mem_map.1 h with ⟨d, hd, rfl⟩
      rcases mem_goodDirs.1 hd with ⟨hok, _⟩
      constructor
      · dsimp only
        rw [pathOk_append, hvalid_head.1]
        simp only [pathOk, hvalid_head.2, Bool.true_and, Bool.and_true]
        exact hok
      · dsimp only
        rw [applyPath_append, hvalid_head.2]
        rfl
  · intro e he
    rcases List.mem_append.1 he with h | h
    · exact inv.entries_min e (List.mem_cons_of_mem _ h)
    · rcases List.mem_map.1 h with ⟨d, hd, rfl⟩
      rcases mem_goodDirs.1 hd with ⟨_, hnv⟩
      intro m hm
      have := bfs_new_min inv hnv m hm
      dsimp only
      simpa using this
  · intro e he
    rcases List.mem_append.1 he with h | h
    · exact (hmem_vis' _).2 (Or.inl (inv.qpos_vis e (List.mem_cons_of_mem _ h)))
    · rcases List.mem_map.1 h with ⟨d, hd, rfl⟩
      exact (hmem_vis' _).2 (Or.inr (List.mem_map.2 ⟨d, hd, rfl⟩))
  · rw [List.pairwise_append]
    refine ⟨(List.pairwise_cons.1 inv.mono).2, ?_, ?_⟩
    · apply List.pairwise_of_forall_mem_list
      intro a ha b hb
      rw [hlen_newE a ha, hlen_newE b hb]
    · intro a ha b hb
      rw [hlen_newE b hb]
      have := hall_le a ha
      omega
  · intro a ha b hb
    rcases List.mem_append.1 ha with h1 | h1 <;> rcases List.mem_append.1 hb with h2 | h2
    · have := hall_le a h1
      have := hrest_le b h2
      omega
    · have := hall_le a h1
      rw [hlen_newE b h2]
      omega
    · rw [hlen_newE a h1]
      have := hrest_le b h2
      omega
    · rw [hlen_newE a h1, hlen_newE b h2]
      omega
  · intro v hv
    rcases (hmem_vis' v).1 hv with h | h
    · exact inv.vis_reach v h
    · rcases hnewP_prop v h with ⟨d, hok, _, rfl⟩
      exact ⟨path.length + 1, reachOk_step hreach_p hok⟩
  · intro v hv
    rcases (hmem_vis' v).1 hv with h | h
    · by_cases hvp : v = p
      · subst hvp
        exact Or.inr ⟨hprocessed_p, hp⟩
      · rcases inv.vis_q_or_done v h with ⟨pth, hmem⟩ | ⟨hproc, hne⟩
        · rcases List.mem_cons.1 hmem with heq | hmem2
          · injection heq with h1 _
            exact absurd h1 hvp
          · exact Or.inl ⟨pth, List.mem_append.2 (Or.inl hmem2)⟩
        · exact Or.inr ⟨fun d hok => (hmem_vis' _).2 (Or.inl (hproc d hok)), hne⟩
    · rcases List.mem_map.1 h with ⟨d, hd, rfl⟩
      exact Or.inl ⟨path ++ [d], List.mem_append.2 (Or.inr (List.mem_map.2 ⟨d, hd, rfl⟩))⟩
  · rw [List.nodup_append]
    refine ⟨List.nodup_reverse.2 (List.Nodup.map ?_ ?_), inv.vis_nodup, ?_⟩
    · intro d1 d2 hdd
      exact padd_vec_injective p hdd
    · exact List.Nodup.filter _ nodup_allDirs
    · intro a ha hav
      rw [List.mem_reverse] at ha
      rcases hnewP_prop a ha with ⟨d, _, hnv, rfl⟩
      exact hnv hav
  · intro v hv
    rcases (hmem_vis' v).1 hv with h | h
    · exact inv.vis_sub v h
    · rcases hnewP_prop v h with ⟨d, hok, _, rfl⟩
      unfold okCell at hok
      rw [Bool.and_eq_true] at hok
      exact Or.inr hok.1

/-! ### C1 part 4: BFS main theorems -/

theorem bfsAux_shortest (R C : Int) (forb : List Pos) (start goal : Pos) :
    ∀ (fuel : Nat) (q : List BEntry) (visited : List Pos),
      BfsInv R C forb start goal q visited →
      q.length + (R.toNat * C.toNat + 1) ≤ fuel + visited.length →
      ∀ n, IsShortest R C forb start goal n →
      (bfsAux R C forb goal fuel q visited).length = n ∧
        pathOk R C forb start (bfsAux R C forb goal fuel q visited) = true ∧
        applyPath start (bfsAux R C forb goal fuel q visited) = goal := by
  intro fuel
  induction fuel with
  | zero =>
    intro q visited inv hcount n hsh
    exfalso
    have hcard := visited_card_le inv.vis_nodup inv.vis_sub
    have hq0 : q = [] := List.length_eq_zero.1 (by omega)
    subst hq0
    exact bfsInv_empty_no_reach inv hsh.1
  | succ f ih =>
    intro q visited inv hcount n hsh
    cases q with
    | nil =>
      exfalso
      exact bfsInv_empty_no_reach inv hsh.1
    | cons e rest =>
      rcases e with ⟨p, path⟩
      unfold bfsAux
      by_cases hpg : p = goal
      · rw [if_pos hpg]
        subst hpg
        have hval := inv.entries_valid (p, path) (List.mem_cons_self _ _)
        dsimp only at hval
        have hle : path.length ≤ n :=
          inv.entries_min (p, path) (List.mem_cons_self _ _) n hsh.1
        have hge : n ≤ path.length := hsh.2 path.length ⟨path, rfl, hval.1, hval.2⟩
        exact ⟨by omega, hval.1, hval.2⟩
      · rw [if_neg hpg]
        dsimp only
        rw [bexpand_eq R C forb p path allDirs nodup_allDirs rest visited]
        refine ih _ _ (bfsInv_step inv hpg) ?_ n hsh
        simp only [List.length_append, List.length_map, List.length_reverse]
        simp only [List.length_cons] at hcount
        omega

theorem bfsAux_unreach (R C : Int) (forb : List Pos) (start goal : Pos)
    (hun : Unreach R C forb start goal) :
    ∀ (fuel : Nat) (q : List BEntry) (visited : List Pos),
      BfsInv R C forb start goal q visited →
      bfsAux R C forb goal fuel q visited = [] := by
  intro fuel
  induction fuel with
  | zero => intro q visited _; rfl
  | succ f ih =>
    intro q visited inv
    cases q with
    | nil => rfl
    | cons e rest =>
      rcases e with ⟨p, path⟩
      unfold bfsAux
      by_cases hpg : p = goal
      · exfalso
        subst hpg
        have hval := inv.entries_valid (p, path) (List.mem_cons_self _ _)
        dsimp only at hval
        exact hun path.length ⟨path, rfl, hval.1, hval.2⟩
      · rw [if_neg hpg]
        dsimp only
        rw [bexpand_eq R C forb p path allDirs nodup_allDirs rest visited]
        exact ih _ _ (bfsInv_step inv hpg)

theorem bfsInv_init (R C : Int) (forb : List Pos) (start goal : Pos) :
    BfsInv R C forb start goal [(start, [])] [start] := by
  refine
    { start_vis := List.mem_singleton.2 rfl
      entries_valid := ?_
      entries_min := ?_
      qpos_vis := ?_
      mono := List.pairwise_singleton _ _
      within := ?_
      vis_reach := ?_
      vis_q_or_done := ?_
      frontier := ?_
      vis_nodup := List.nodup_singleton _
      vis_sub := ?_ }
  · intro e he
    rcases List.mem_singleton.1 he with rfl
    exact ⟨rfl, rfl⟩
  · intro e he m _
    rcases List.mem_singleton.1 he with rfl
    simp
  · intro e he
    rcases List.mem_singleton.1 he with rfl
    exact List.mem_singleton.2 rfl
  · intro a ha b hb
    rcases List.mem_singleton.1 ha with rfl
    rcases List.mem_singleton.1 hb with rfl
    simp
  · intro v hv
    rcases List.mem_singleton.1 hv with rfl
    exact ⟨0, reachOk_self _ _ _ _⟩
  · intro v hv
    rcases List.mem_singleton.1 hv with rfl
    exact Or.inl ⟨[], List.mem_singleton.2 rfl⟩
  · intro x m _ hb
    exact absurd (hb (start, []) (List.mem_singleton.2 rfl)) (by simp)
  · intro v hv
    rcases List.mem_singleton.1 hv with rfl
    exact Or.inl rfl

theorem bfs_shortest (R C : Int) (forb : List Pos) (start goal : Pos) (n : Nat)
    (h : IsShortest R C forb start goal n) :
    (bfs R C forb start goal).length = n ∧
      pathOk R C forb start (bfs R C forb start goal) = true ∧
      applyPath start (bfs R C forb start goal) = goal := by
  unfold bfs
  exact bfsAux_shortest R C forb start goal _ _ _ (bfsInv_init R C forb start goal)
    (by simp; omega) n h

theorem bfs_unreach (R C : Int) (forb : List Pos) (start goal : Pos)
    (h : Unreach R C forb start goal) : bfs R C forb start goal = [] := by
  unfold bfs
  exact bfsAux_unreach R C forb start goal h _ _ _ (bfsInv_init R C forb start goal)

/-! ### C1 part 5: A* auxiliary lemmas -/

theorem okCell_iff {R C : Int} {F : List Pos} {np : Pos} :
    okCell R C F np = true ↔ inB R C np = true ∧ np ∉ F := by
  unfold okCell
  simp only [Bool.and_eq_true, Bool.not_eq_eq_eq_not, Bool.not_true, contains_false_iff]

theorem arelax_cond_iff {R C : Int} {blocked dangerous visited : List Pos} {np : Pos} :
    ((inB R C np && !(visited.contains np) && !(blocked.contains np) &&
      !(dangerous.contains np)) = true) ↔
    (okCell R C (blocked ++ dangerous) np = true ∧ np ∉ visited) := by
  simp only [Bool.and_eq_true, Bool.not_eq_eq_eq_not, Bool.not_true, contains_false_iff]
  rw [okCell_iff]
  simp only [List.mem_append]
  tauto

theorem mdist_step_le (a g : Pos) (d : Dir) :
    mdist a g ≤ mdist (padd a d.vec) g + 1 := by
  unfold mdist padd
  cases d <;> simp [Dir.vec] <;> omega

theorem mdist_path_le (g : Pos) : ∀ (ds : List Dir) (a : Pos),
    mdist a g ≤ ds.length + mdist (applyPath a ds) g := by
  intro ds
  induction ds with
  | nil => intro a; simp [applyPath]
  | cons d rest ih =>
    intro a
    have h1 := mdist_step_le a g d
    have h2 := ih (padd a d.vec)
    simp only [applyPath, List.length_cons]
    omega

theorem mdist_consistent {R C : Int} {F : List Pos} {a b : Pos} {k : Nat}
    (h : ReachOk R C F a b k) (g : Pos) : mdist a g ≤ k + mdist b g := by
  rcases h with ⟨ds, hlen, _, happ⟩
  have := mdist_path_le g ds a
  rw [hlen, happ] at this
  exact this

theorem findMin_f_le (l : List AEntry) : ∀ (b : AEntry) (x : AEntry),
    (x = b ∨ x ∈ l) → (findMin b l).f ≤ x.f := by
  induction l with
  | nil =>
    rintro b x (rfl | hx)
    · exact le_refl _
    · cases hx
  | cons y ys ih =>
    rintro b x hx
    unfold findMin
    have hb' : (if entryLt y b then y else b).f ≤ b.f ∧
        (if entryLt y b then y else b).f ≤ y.f := by
      unfold entryLt
      split
      · rename_i hlt
        simp only [Bool.or_eq_true, Bool.and_eq_true, decide_eq_true_eq] at hlt
        rcases hlt with h | ⟨h, _⟩
        · exact ⟨le_of_lt h, le_refl _⟩
        · exact ⟨le_of_eq h, le_refl _⟩
      · rename_i hnlt
        simp only [Bool.or_eq_true, Bool.and_eq_true, decide_eq_true_eq, not_or,
          not_and] at hnlt
        exact ⟨le_refl _, by omega⟩
    rcases hx with rfl | hx
    · exact le_trans (ih _ _ (Or.inl rfl)) hb'.1
    · rcases List.mem_cons.1 hx with rfl | hx
      · exact le_trans (ih _ _ (Or.inl rfl)) hb'.2
      · exact ih _ _ (Or.inr hx)

theorem popMin_f_min {heap : List AEntry} {e : AEntry} {rest : List AEntry}
    (h : popMin heap = some (e, rest)) : ∀ x ∈ heap, e.f ≤ x.f := by
  cases heap with
  | nil => cases h
  | cons hd tl =>
    unfold popMin at h
    dsimp only at h
    cases h
    intro x hx
    rcases List.mem_cons.1 hx with h1 | h1
    · rw [h1]
      exact findMin_f_le tl hd hd (Or.inl rfl)
    · exact findMin_f_le tl hd x (Or.inr h1)

theorem popMin_none {heap : List AEntry} (h : popMin heap = none) : heap = [] := by
  cases heap with
  | nil => rfl
  | cons hd tl => cases h

theorem lookup_setG (pos np : Pos) (v : Nat) (gs : List (Pos × Nat)) :
    List.lookup pos (setG np v gs) =
      if pos = np then some v else List.lookup pos gs := by
  unfold setG
  by_cases h : pos = np
  · subst h
    rw [if_pos rfl]
    simp [List.lookup]
  · rw [if_neg h]
    have : (pos == np) = false := by simpa using h
    simp [List.lookup, this]

/-! ### C1 part 6: characterising one A* expansion -/

/-- What one A* neighbour-relaxation pass guarantees: the heap grows by at most
one entry per direction, each pushed entry records a valid extension of the
base path with `g`-value `gb + 1`, each acceptable neighbour is either pushed or
already had a `g`-value at most `gb + 1`, and the `g_score` table only ever
decreases, changing only at relaxed neighbours. -/
structure ARelaxOut (R C : Int) (blocked dangerous : List Pos) (goal : Pos)
    (visited : List Pos) (base : Pos) (bpath : List Dir) (gb : Nat)
    (ds : List Dir) (heap : List AEntry) (gs : List (Pos × Nat))
    (out : List AEntry × List (Pos × Nat) × Nat) : Prop where
  pushes_spec : ∃ pushes : List AEntry, out.1 = heap ++ pushes ∧
      pushes.length ≤ ds.length ∧
      ∀ x ∈ pushes, ∃ d ∈ ds,
        okCell R C (blocked ++ dangerous) (padd base d.vec) = true ∧
        padd base d.vec ∉ visited ∧
        x.pos = padd base d.vec ∧ x.path = bpath ++ [d] ∧
        x.f = (gb + 1) + mdist (padd base d.vec) goal ∧
        List.lookup x.pos out.2.1 = some (gb + 1)
  relaxed : ∀ d ∈ ds, okCell R C (blocked ++ dangerous) (padd base d.vec) = true →
      padd base d.vec ∉ visited →
      (∃ x ∈ out.1, x.pos = padd base d.vec ∧ x.path = bpath ++ [d]) ∨
      (∃ g, List.lookup (padd base d.vec) gs = some g ∧ g ≤ gb + 1 ∧
        List.lookup (padd base d.vec) out.2.1 = some g)
  gs_new : ∀ pos g, List.lookup pos out.2.1 = some g →
      List.lookup pos gs = some g ∨
      (g = gb + 1 ∧ ∃ d ∈ ds, pos = padd base d.vec ∧
        okCell R C (blocked ++ dangerous) pos = true ∧ pos ∉ visited)
  gs_frame : ∀ pos, (∀ d ∈ ds, pos ≠ padd base d.vec) →
      List.lookup pos out.2.1 = List.lookup pos gs
  gs_mono : ∀ pos g, List.lookup pos gs = some g →
      ∃ g', List.lookup pos out.2.1 = some g' ∧ g' ≤ g

theorem arelax_spec (R C : Int) (blocked dangerous : List Pos) (goal : Pos)
    (visited : List Pos) (base : Pos) (bpath : List Dir) (gb : Nat) :
    ∀ (ds : List Dir), ds.Nodup →
    ∀ (heap : List AEntry) (gs : List (Pos × Nat)) (cnt : Nat)
      (out : List AEntry × List (Pos × Nat) × Nat),
      out = arelax R C blocked dangerous goal visited base bpath gb ds heap gs cnt →
      ARelaxOut R C blocked dangerous goal visited base bpath gb ds heap gs out := by
  intro ds
  induction ds with
  | nil =>
    intro _ heap gs cnt out hout
    rw [arelax] at hout
    subst hout
    refine
      { pushes_spec := ⟨[], by simp, by simp, by intro x hx; cases hx⟩
        relaxed := by intro d hd; cases hd
        gs_new := fun pos g h => Or.inl h
        gs_frame := fun pos _ => rfl
        gs_mono := fun pos g h => ⟨g, h, le_refl g⟩ }
  | cons d rest ih =>
    intro hnd heap gs cnt out hout
    rw [List.nodup_cons] at hnd
    have hne_np : ∀ d' ∈ rest, padd base d'.vec ≠ padd base d.vec := by
      intro d' hd' he
      exact hnd.1 (padd_vec_injective base he ▸ hd')
    unfold arelax at hout
    dsimp only at hout
    by_cases hcond : (inB R C (padd base d.vec) &&
        !(visited.contains (padd base d.vec)) &&
        !(blocked.contains (padd base d.vec)) &&
        !(dangerous.contains (padd base d.vec))) = true
    · rw [if_pos hcond] at hout
      rcases arelax_cond_iff.1 hcond with ⟨hok, hnv⟩
      cases hlk : List.lookup (padd base d.vec) gs with
      | none =>
        rw [hlk] at hout
        rw [if_pos rfl] at hout
        have spec := ih hnd.2 _ _ _ out hout
        refine
          { pushes_spec := ?_
            relaxed := ?_
            gs_new := ?_
            gs_frame := ?_
            gs_mono := ?_ }
        · rcases spec.pushes_spec with ⟨pushes, h1, h2, h3⟩
          refine ⟨⟨(gb + 1) + mdist (padd base d.vec) goal, cnt + 1,
            padd base d.vec, bpath ++ [d]⟩ :: pushes, ?_, ?_, ?_⟩
          · rw [h1, List.append_assoc]
            rfl
          · simp only [List.length_cons]
            omega
          · intro x hx
            rcases List.mem_cons.1 hx with rfl | hx
            · refine ⟨d, List.mem_cons_self _ _, hok, hnv, rfl, rfl, rfl, ?_⟩
              have hframe := spec.gs_frame (padd base d.vec)
                (fun d' hd' => (hne_np d' hd').symm)
              rw [hframe, lookup_setG, if_pos rfl]
            · rcases h3 x hx with ⟨d', hd', ha, hb, hc, hdd, he, hf⟩
              exact ⟨d', List.mem_cons_of_mem _ hd', ha, hb, hc, hdd, he, hf⟩
        · intro d' hd' hok' hnv'
          rcases List.mem_cons.1 hd' with rfl | hd'
          · left
            rcases spec.pushes_spec with ⟨pushes, h1, _, _⟩
            refine ⟨⟨(gb + 1) + mdist (padd base d'.vec) goal, cnt + 1,
              padd base d'.vec, bpath ++ [d']⟩, ?_, rfl, rfl⟩
            rw [h1]
            exact List.mem_append.2 (Or.inl (List.mem_append.2 (Or.inr
              (List.mem_singleton.2 rfl))))
          · rcases spec.relaxed d' hd' hok' hnv' with h | ⟨g, hg1, hg2, hg3⟩
            · exact Or.inl h
            · right
              rw [lookup_setG, if_neg (hne_np d' hd')] at hg1
              exact ⟨g, hg1, hg2, hg3⟩
        · intro pos g hg
          rcases spec.gs_new pos g hg with h | ⟨h1, d', hd', h2, h3, h4⟩
          · rw [lookup_setG] at h
            by_cases hpos : pos = padd base d.vec
            · rw [if_pos hpos] at h
              cases h
              exact Or.inr ⟨rfl, d, List.mem_cons_self _ _, hpos, hpos ▸ hok, hpos ▸ hnv⟩
            · rw [if_neg hpos] at h
              exact Or.inl h
          · exact Or.inr ⟨h1, d', List.mem_cons_of_mem _ hd', h2, h3, h4⟩
        · intro pos hpos
          have h1 := spec.gs_frame pos (fun d' hd' => hpos d' (List.mem_cons_of_mem _ hd'))
          rw [h1, lookup_setG, if_neg (hpos d (List.mem_cons_self _ _))]
        · intro pos g hg
          by_cases hpos : pos = padd base d.vec
          · rw [hpos, hlk] at hg
            cases hg
          · have h1 : List.lookup pos (setG (padd base d.vec) (gb + 1) gs) = some g := by
              rw [lookup_setG, if_neg hpos]
              exact hg
            exact spec.gs_mono pos g h1
      | some g0 =>
        rw [hlk] at hout
        by_cases hkeep : gb + 1 < g0
        · rw [if_pos (by simpa using hkeep)] at hout
          have spec := ih hnd.2 _ _ _ out hout
          refine
            { pushes_spec := ?_
              relaxed := ?_
              gs_new := ?_
              gs_frame := ?_
              gs_mono := ?_ }
          · rcases spec.pushes_spec with ⟨pushes, h1, h2, h3⟩
            refine ⟨⟨(gb + 1) + mdist (padd base d.vec) goal, cnt + 1,
              padd base d.vec, bpath ++ [d]⟩ :: pushes, ?_, ?_, ?_⟩
            · rw [h1, List.append_assoc]
              rfl
            · simp only [List.length_cons]
              omega
            · intro x hx
              rcases List.mem_cons.1 hx with rfl | hx
              · refine ⟨d, List.mem_cons_self _ _, hok, hnv, rfl, rfl, rfl, ?_⟩
                have hframe := spec.gs_frame (padd base d.vec)
                  (fun d' hd' => (hne_np d' hd').symm)
                rw [hframe, lookup_setG, if_pos rfl]
              · rcases h3 x hx with ⟨d', hd', ha, hb, hc, hdd, he, hf⟩
                exact ⟨d', List.mem_cons_of_mem _ hd', ha, hb, hc, hdd, he, hf⟩
          · intro d' hd' hok' hnv'
            rcases List.mem_cons.1 hd' with rfl | hd'
            · left
              rcases spec.pushes_spec with ⟨pushes, h1, _, _⟩
              refine ⟨⟨(gb + 1) + mdist (padd base d'.vec) goal, cnt + 1,
                padd base d'.vec, bpath ++ [d']⟩, ?_, rfl, rfl⟩
              rw [h1]
              exact List.mem_append.2 (Or.inl (List.mem_append.2 (Or.inr
                (List.mem_singleton.2 rfl))))
            · rcases spec.relaxed d' hd' hok' hnv' with h | ⟨g, hg1, hg2, hg3⟩
              · exact Or.inl h
              · right
                rw [lookup_setG, if_neg (hne_np d' hd')] at hg1
                exact ⟨g, hg1, hg2, hg3⟩
          · intro pos g hg
            rcases spec.gs_new pos g hg with h | ⟨h1, d', hd', h2, h3, h4⟩
            · rw [lookup_setG] at h
              by_cases hpos : pos = padd base d.vec
              · rw [if_pos hpos] at h
                cases h
                exact Or.inr ⟨rfl, d, List.mem_cons_self _ _, hpos, hpos ▸ hok,
                  hpos ▸ hnv⟩
              · rw [if_neg hpos] at h
                exact Or.inl h
            · exact Or.inr ⟨h1, d', List.mem_cons_of_mem _ hd', h2, h3, h4⟩
          · intro pos hpos
            have h1 := spec.gs_frame pos
              (fun d' hd' => hpos d' (List.mem_cons_of_mem _ hd'))
            rw [h1, lookup_setG, if_neg (hpos d (List.mem_cons_self _ _))]
          · intro pos g hg
            by_cases hpos : pos = padd base d.vec
            · rw [hpos, hlk] at hg
              cases hg
              have h1 : List.lookup pos (setG (padd base d.vec) (gb + 1) gs) =
                  some (gb + 1) := by
                rw [lookup_setG, if_pos hpos]
              rcases spec.gs_mono pos (gb + 1) h1 with ⟨g', hg', hle⟩
              exact ⟨g', hg', by omega⟩
            · have h1 : List.lookup pos (setG (padd base d.vec) (gb + 1) gs) = some g := by
                rw [lookup_setG, if_neg hpos]
                exact hg
              exact spec.gs_mono pos g h1
        · rw [if_neg (by simpa using hkeep)] at hout
          have spec := ih hnd.2 _ _ _ out hout
          refine
            { pushes_spec := ?_
              relaxed := ?_
              gs_new := ?_
              gs_frame := ?_
              gs_mono := ?_ }
          · rcases spec.pushes_spec with ⟨pushes, h1, h2, h3⟩
            refine ⟨pushes, h1, by simp only [List.length_cons]; omega, ?_⟩
            intro x hx
            rcases h3 x hx with ⟨d', hd', ha, hb, hc, hdd, he, hf⟩
            exact ⟨d', List.mem_cons_of_mem _ hd', ha, hb, hc, hdd, he, hf⟩
          · intro d' hd' hok' hnv'
            rcases List.mem_cons.1 hd' with rfl | hd'
            · right
              refine ⟨g0, hlk, by omega, ?_⟩
              have hframe := spec.gs_frame (padd base d'.vec)
                (fun d'' hd'' => (hne_np d'' hd'').symm)
              rw [hframe]
              exact hlk
            · rcases spec.relaxed d' hd' hok' hnv' with h | ⟨g, hg1, hg2, hg3⟩
              · exact Or.inl h
              · exact Or.inr ⟨g, hg1, hg2, hg3⟩
          · intro pos g hg
            rcases spec.gs_new pos g hg with h | ⟨h1, d', hd', h2, h3, h4⟩
            · exact Or.inl h
            · exact Or.inr ⟨h1, d', List.mem_cons_of_mem _ hd', h2, h3, h4⟩
          · intro pos hpos
            exact spec.gs_frame pos (fun d' hd' => hpos d' (List.mem_cons_of_mem _ hd'))
          · exact spec.gs_mono
    · rw [if_neg hcond] at hout
      have spec := ih hnd.2 _ _ _ out hout
      refine
        { pushes_spec := ?_
          relaxed := ?_
          gs_new := ?_
          gs_frame := ?_
          gs_mono := ?_ }
      · rcases spec.pushes_spec with ⟨pushes, h1, h2, h3⟩
        refine ⟨pushes, h1, by simp only [List.length_cons]; omega, ?_⟩
        intro x hx
        rcases h3 x hx with ⟨d', hd', ha, hb, hc, hdd, he, hf⟩
        exact ⟨d', List.mem_cons_of_mem _ hd', ha, hb, hc, hdd, he, hf⟩
      · intro d' hd' hok' hnv'
        rcases List.mem_cons.1 hd' with rfl | hd'
        · exact absurd (arelax_cond_iff.2 ⟨hok', hnv'⟩) hcond
        · rcases spec.relaxed d' hd' hok' hnv' with h | h
          · exact Or.inl h
          · exact Or.inr h
      · intro pos g hg
        rcases spec.gs_new pos g hg with h | ⟨h1, d', hd', h2, h3, h4⟩
        · exact Or.inl h
        · exact Or.inr ⟨h1, d', List.mem_cons_of_mem _ hd', h2, h3, h4⟩
      · intro pos hpos
        exact spec.gs_frame pos (fun d' hd' => hpos d' (List.mem_cons_of_mem _ hd'))
      · exact spec.gs_mono

/-! ### C1 part 7: the A* loop invariant -/

theorem padd_ne_self (p : Pos) (d : Dir) : padd p d.vec ≠ p := by
  cases d <;>
  · unfold padd Dir.vec
    intro h
    have h1 := congrArg Prod.fst h
    have h2 := congrArg Prod.snd h
    dsimp at h1 h2
    omega

theorem pathOk_last_inB {R C : Int} {F : List Pos} {a : Pos} {ds : List Dir}
    (hok : pathOk R C F a ds = true) (hne : ds ≠ []) :
    inB R C (applyPath a ds) = true := by
  rcases List.eq_nil_or_concat ds with rfl | ⟨ys, d, rfl⟩
  · exact absurd rfl hne
  · rw [List.concat_eq_append] at hok ⊢
    rw [pathOk_append, Bool.and_eq_true] at hok
    have h2 := hok.2
    simp only [pathOk, Bool.and_eq_true] at h2
    rw [applyPath_append]
    have h3 := (okCell_iff.1 h2.1).1
    simpa [applyPath] using h3

theorem reachOk_cons {R C : Int} {F : List Pos} {a b : Pos} {k : Nat}
    (h : ReachOk R C F a b (k + 1)) :
    ∃ d : Dir, okCell R C F (padd a d.vec) = true ∧
      ReachOk R C F (padd a d.vec) b k := by
  rcases h with ⟨ds, hlen, hok, happ⟩
  cases ds with
  | nil => cases hlen
  | cons d ds' =>
    simp only [pathOk, Bool.and_eq_true] at hok
    refine ⟨d, hok.1, ⟨ds', by simpa using hlen, hok.2, happ⟩⟩

/-- The invariant of the A* main loop. -/
structure AInv (R C : Int) (blocked dangerous : List Pos) (start goal : Pos)
    (heap : List AEntry) (gs : List (Pos × Nat)) (visited : List Pos) : Prop where
  entries_valid : ∀ e ∈ heap,
      pathOk R C (blocked ++ dangerous) start e.path = true ∧
      applyPath start e.path = e.pos
  entries_f : ∀ e ∈ heap, e.f = e.path.length + mdist e.pos goal
  entries_g : ∀ e ∈ heap, ∃ g, List.lookup e.pos gs = some g ∧ g ≤ e.path.length
  gs_real : ∀ pos g, List.lookup pos gs = some g →
      ReachOk R C (blocked ++ dangerous) start pos g
  vis_min : ∀ v ∈ visited, ∃ g, List.lookup v gs = some g ∧
      ∀ m, ReachOk R C (blocked ++ dangerous) start v m → g ≤ m
  vis_expanded : ∀ v ∈ visited, ∀ d : Dir,
      okCell R C (blocked ++ dangerous) (padd v d.vec) = true →
      padd v d.vec ∈ visited ∨
      ∃ e ∈ heap, e.pos = padd v d.vec ∧
        ∃ gv, List.lookup v gs = some gv ∧ e.path.length ≤ gv + 1
  gs_entry : ∀ pos g, List.lookup pos gs = some g →
      pos ∈ visited ∨ ∃ e ∈ heap, e.pos = pos ∧ e.path.length ≤ g
  goal_not_vis : goal ∉ visited
  cover : ∀ u m, ReachOk R C (blocked ++ dangerous) start u m →
      u ∈ visited ∨ ∃ e ∈ heap, ∃ k,
        ReachOk R C (blocked ++ dangerous) e.pos u k ∧ e.path.length + k ≤ m
  vis_nodup : visited.Nodup
  vis_sub : ∀ v ∈ visited, v = start ∨ inB R C v = true

theorem astar_walk {R C : Int} {blocked dangerous : List Pos} {start : Pos}
    {heap : List AEntry} {gs : List (Pos × Nat)} {visited : List Pos}
    (hexp : ∀ v ∈ visited, ∀ d : Dir,
      okCell R C (blocked ++ dangerous) (padd v d.vec) = true →
      padd v d.vec ∈ visited ∨
      ∃ e ∈ heap, e.pos = padd v d.vec ∧
        ∃ gv, List.lookup v gs = some gv ∧ e.path.length ≤ gv + 1)
    (hmin : ∀ v ∈ visited, ∃ g, List.lookup v gs = some g ∧
      ∀ m, ReachOk R C (blocked ++ dangerous) start v m → g ≤ m) :
    ∀ (k : Nat) (v u : Pos), v ∈ visited →
      ReachOk R C (blocked ++ dangerous) v u k →
      u ∈ visited ∨ ∃ e ∈ heap, ∃ k',
        ReachOk R C (blocked ++ dangerous) e.pos u k' ∧
        ∀ m, ReachOk R C (blocked ++ dangerous) start v m →
          e.path.length + k' ≤ m + k := by
  intro k
  induction k with
  | zero =>
    intro v u hv hr
    exact Or.inl ((reachOk_zero hr) ▸ hv)
  | succ k ih =>
    intro v u hv hr
    rcases reachOk_cons hr with ⟨d, hok, hr'⟩
    rcases hexp v hv d hok with hyv | ⟨e, he, hepos, gv, hgv, hlen⟩
    · rcases ih (padd v d.vec) u hyv hr' with h | ⟨e, he, k', hr'', hb⟩
      · exact Or.inl h
      · refine Or.inr ⟨e, he, k', hr'', ?_⟩
        intro m hm
        have hstep := reachOk_step hm hok
        have := hb (m + 1) hstep
        omega
    · refine Or.inr ⟨e, he, k, hepos ▸ hr', ?_⟩
      intro m hm
      rcases hmin v hv with ⟨g, hg, hgmin⟩
      rw [hgv] at hg
      cases hg
      have := hgmin m hm
      omega

theorem astar_pop_optimal {R C : Int} {blocked dangerous : List Pos}
    {start goal : Pos} {heap : List AEntry} {gs : List (Pos × Nat)}
    {visited : List Pos}
    (inv : AInv R C blocked dangerous start goal heap gs visited)
    {e : AEntry} {rest : List AEntry}
    (hpop : popMin heap = some (e, rest)) (hnv : e.pos ∉ visited) :
    ∀ m, ReachOk R C (blocked ++ dangerous) start e.pos m → e.path.length ≤ m := by
  intro m hm
  rcases inv.cover e.pos m hm with hvis | ⟨e', he', k, hr', hb'⟩
  · exact absurd hvis hnv
  · have hf := popMin_f_min hpop e' he'
    have hcons := mdist_consistent hr' goal
    have hfe := inv.entries_f e (popMin_mem hpop).1
    have hfe' := inv.entries_f e' he'
    omega

theorem aInv_discard {R C : Int} {blocked dangerous : List Pos} {start goal : Pos}
    {heap : List AEntry} {gs : List (Pos × Nat)} {visited : List Pos}
    (inv : AInv R C blocked dangerous start goal heap gs visited)
    {e : AEntry} {rest : List AEntry}
    (hpop : popMin heap = some (e, rest)) (hvis : e.pos ∈ visited) :
    AInv R C blocked dangerous start goal rest gs visited := by
  rcases popMin_mem hpop with ⟨hmem, hrest⟩
  have hsub : ∀ x ∈ rest, x ∈ heap := by
    intro x hx
    exact List.erase_subset _ _ (hrest ▸ hx)
  have hsplit : ∀ x ∈ heap, x = e ∨ x ∈ rest := by
    intro x hx
    by_cases hxe : x = e
    · exact Or.inl hxe
    · right
      rw [hrest]
      exact (List.mem_erase_of_ne hxe).2 hx
  have hexp' : ∀ v ∈ visited, ∀ d : Dir,
      okCell R C (blocked ++ dangerous) (padd v d.vec) = true →
      padd v d.vec ∈ visited ∨
      ∃ x ∈ rest, x.pos = padd v d.vec ∧
        ∃ gv, List.lookup v gs = some gv ∧ x.path.length ≤ gv + 1 := by
    intro v hv d hok
    rcases inv.vis_expanded v hv d hok with h | ⟨e', he', hepos, gv, hgv, hlen⟩
    · exact Or.inl h
    · rcases hsplit e' he' with rfl | hre
      · exact Or.inl (hepos ▸ hvis)
      · exact Or.inr ⟨e', hre, hepos, gv, hgv, hlen⟩
  refine
    { entries_valid := fun x hx => inv.entries_valid x (hsub x hx)
      entries_f := fun x hx => inv.entries_f x (hsub x hx)
      entries_g := fun x hx => inv.entries_g x (hsub x hx)
      gs_real := inv.gs_real
      vis_min := inv.vis_min
      vis_expanded := hexp'
      gs_entry := ?_
      goal_not_vis := inv.goal_not_vis
      cover := ?_
      vis_nodup := inv.vis_nodup
      vis_sub := inv.vis_sub }
  · intro pos g hg
    rcases inv.gs_entry pos g hg with h | ⟨e', he', hepos, hlen⟩
    · exact Or.inl h
    · rcases hsplit e' he' with rfl | hre
      · exact Or.inl (hepos ▸ hvis)
      · exact Or.inr ⟨e', hre, hepos, hlen⟩
  · intro u m hr
    rcases inv.cover u m hr with h | ⟨e', he', k, hrk, hbk⟩
    · exact Or.inl h
    · rcases hsplit e' he' with rfl | hre
      · rcases inv.entries_g e' hmem with ⟨g, hg, hgle⟩
        have hreal := inv.gs_real e'.pos g hg
        rcases astar_walk hexp' inv.vis_min k e'.pos u hvis hrk with h | ⟨e₂, he₂, k₂, hr₂, hb₂⟩
        · exact Or.inl h
        · refine Or.inr ⟨e₂, he₂, k₂, hr₂, ?_⟩
          have := hb₂ g hreal
          omega
      · exact Or.inr ⟨e', hre, k, hrk, hbk⟩

theorem aInv_finalize {R C : Int} {blocked dangerous : List Pos} {start goal : Pos}
    {heap : List AEntry} {gs : List (Pos × Nat)} {visited : List Pos}
    (inv : AInv R C blocked dangerous start goal heap gs visited)
    {e : AEntry} {rest : List AEntry} {cnt : Nat}
    (hpop : popMin heap = some (e, rest)) (hnv : e.pos ∉ visited) (hng : e.pos ≠ goal)
    {out : List AEntry × List (Pos × Nat) × Nat}
    (hout : out = arelax R C blocked dangerous goal (e.pos :: visited) e.pos e.path
      ((List.lookup e.pos gs).getD 0) allDirs rest gs cnt) :
    AInv R C blocked dangerous start goal out.1 out.2.1 (e.pos :: visited) ∧
      out.1.length ≤ rest.length + 4 := by
  rcases popMin_mem hpop with ⟨hmem, hrest⟩
  have hsub : ∀ x ∈ rest, x ∈ heap := by
    intro x hx
    exact List.erase_subset _ _ (hrest ▸ hx)
  have hsplit : ∀ x ∈ heap, x = e ∨ x ∈ rest := by
    intro x hx
    by_cases hxe : x = e
    · exact Or.inl hxe
    · right
      rw [hrest]
      exact (List.mem_erase_of_ne hxe).2 hx
  have hval_e := inv.entries_valid e hmem
  have hopt := astar_pop_optimal inv hpop hnv
  rcases inv.entries_g e hmem with ⟨g0, hg0, hg0le⟩
  have hge : g0 = e.path.length :=
    le_antisymm hg0le (hopt g0 (inv.gs_real e.pos g0 hg0))
  have hg_eq : List.lookup e.pos gs = some e.path.length := by
    rw [← hge]
    exact hg0
  have hgb : (List.lookup e.pos gs).getD 0 = e.path.length := by
    rw [hg_eq]
    rfl
  rw [hgb] at hout
  have spec := arelax_spec R C blocked dangerous goal (e.pos :: visited) e.pos e.path
    e.path.length allDirs nodup_allDirs rest gs cnt out hout
  rcases spec.pushes_spec with ⟨pushes, hP1, hPlen, hPmem⟩
  have hreach_e : ReachOk R C (blocked ++ dangerous) start e.pos e.path.length :=
    ⟨e.path, rfl, hval_e.1, hval_e.2⟩
  have hpres : ∀ pos, pos ∈ e.pos :: visited → ∀ g,
      List.lookup pos gs = some g → List.lookup pos out.2.1 = some g := by
    intro pos hpos g hg
    rcases spec.gs_mono pos g hg with ⟨g', hg', hle⟩
    rcases spec.gs_new pos g' hg' with h | ⟨_, d', _, hpd, _, hnvis⟩
    · rw [h] at hg
      cases hg
      exact hg'
    · exact absurd (hpd ▸ hpos) hnvis
  have hout_sub : ∀ x ∈ out.1, x ∈ rest ∨ x ∈ pushes := by
    intro x hx
    rw [hP1] at hx
    exact List.mem_append.1 hx
  have hrest_out : ∀ x ∈ rest, x ∈ out.1 := by
    intro x hx
    rw [hP1]
    exact List.mem_append.2 (Or.inl hx)
  have hmin' : ∀ v ∈ e.pos :: visited, ∃ g, List.lookup v out.2.1 = some g ∧
      ∀ m, ReachOk R C (blocked ++ dangerous) start v m → g ≤ m := by
    intro v hv
    rcases List.mem_cons.1 hv with rfl | hv'
    · exact ⟨e.path.length, hpres e.pos (List.mem_cons_self _ _) _ hg_eq, hopt⟩
    · rcases inv.vis_min v hv' with ⟨g, hg, hmin⟩
      exact ⟨g, hpres v (List.mem_cons_of_mem _ hv') g hg, hmin⟩
  have hexp' : ∀ v ∈ e.pos :: visited, ∀ d : Dir,
      okCell R C (blocked ++ dangerous) (padd v d.vec) = true →
      padd v d.vec ∈ e.pos :: visited ∨
      ∃ x ∈ out.1, x.pos = padd v d.vec ∧
        ∃ gv, List.lookup v out.2.1 = some gv ∧ x.path.length ≤ gv + 1 := by
    intro v hv d hok
    rcases List.mem_cons.1 hv with rfl | hv'
    · by_cases hnp : padd e.pos d.vec ∈ e.pos :: visited
      · exact Or.inl hnp
      · rcases spec.relaxed d (mem_allDirs d) hok hnp with
          ⟨x, hx, hxpos, hxpath⟩ | ⟨g, hggs, hgle, hgout⟩
        · refine Or.inr ⟨x, hx, hxpos, e.path.length,
            hpres e.pos (List.mem_cons_self _ _) _ hg_eq, ?_⟩
          rw [hxpath]
          simp
        · rcases inv.gs_entry (padd e.pos d.vec) g hggs with hin | ⟨e', he', hepos, hlen⟩
          · exact absurd (List.mem_cons_of_mem _ hin) hnp
          · rcases hsplit e' he' with rfl | hre
            · exact absurd hepos.symm (padd_ne_self e'.pos d)
            · refine Or.inr ⟨e', hrest_out e' hre, hepos, e.path.length,
                hpres e.pos (List.mem_cons_self _ _) _ hg_eq, ?_⟩
              omega
    · rcases inv.vis_expanded v hv' d hok with h | ⟨e', he', hepos, gv, hgv, hlen⟩
      · exact Or.inl (List.mem_cons_of_mem _ h)
      · rcases hsplit e' he' with rfl | hre
        · left
          rw [← hepos]
          exact List.mem_cons_self _ _
        · exact Or.inr ⟨e', hrest_out e' hre, hepos, gv,
            hpres v (List.mem_cons_of_mem _ hv') gv hgv, hlen⟩
  refine ⟨{ entries_valid := ?_
            entries_f := ?_
            entries_g := ?_
            gs_real := ?_
            vis_min := hmin'
            vis_expanded := hexp'
            gs_entry := ?_
            goal_not_vis := ?_
            cover := ?_
            vis_nodup := List.nodup_cons.2 ⟨hnv, inv.vis_nodup⟩
            vis_sub := ?_ }, ?_⟩
  · intro x hx
    rcases hout_sub x hx with hre | hpu
    · exact inv.entries_valid x (hsub x hre)
    · rcases hPmem x hpu with ⟨d, _, hok, _, hxpos, hxpath, _, _⟩
      constructor
      · rw [hxpath, pathOk_append, hval_e.1, hval_e.2]
        simp only [pathOk, Bool.true_and, Bool.and_true]
        exact hok
      · rw [hxpath, applyPath_append, hval_e.2, hxpos]
        rfl
  · intro x hx
    rcases hout_sub x hx with hre | hpu
    · exact inv.entries_f x (hsub x hre)
    · rcases hPmem x hpu with ⟨d, _, _, _, hxpos, hxpath, hxf, _⟩
      rw [hxf, hxpath, hxpos]
      simp
  · intro x hx
    rcases hout_sub x hx with hre | hpu
    · rcases inv.entries_g x (hsub x hre) with ⟨g, hg, hgle⟩
      rcases spec.gs_mono x.pos g hg with ⟨g', hg', hle'⟩
      exact ⟨g', hg', by omega⟩
    · rcases hPmem x hpu with ⟨d, _, _, _, hxpos, hxpath, _, hlook⟩
      refine ⟨e.path.length + 1, hlook, ?_⟩
      rw [hxpath]
      simp
  · intro pos g hg
    rcases spec.gs_new pos g hg with h | ⟨hgeq, d, _, hpd, hokp, _⟩
    · exact inv.gs_real pos g h
    · subst hpd
      rw [hgeq]
      exact reachOk_step hreach_e hokp
  · intro pos g hg
    rcases spec.gs_new pos g hg with h | ⟨hgeq, d, _, hpd, hokp, hnvp⟩
    · rcases inv.gs_entry pos g h with hin | ⟨e', he', hepos, hlen⟩
      · exact Or.inl (List.mem_cons_of_mem _ hin)
      · rcases hsplit e' he' with rfl | hre
        · left
          rw [← hepos]
          exact List.mem_cons_self _ _
        · exact Or.inr ⟨e', hrest_out e' hre, hepos, hlen⟩
    · subst hpd
      rcases spec.relaxed d (mem_allDirs d) hokp hnvp with
        ⟨x, hx, hxpos, hxpath⟩ | ⟨g₀, hg₀, hg₀le, hg₀out⟩
      · refine Or.inr ⟨x, hx, hxpos, ?_⟩
        rw [hxpath, hgeq]
        simp
      · rw [hg₀out] at hg
        cases hg
        rcases inv.gs_entry _ _ hg₀ with hin | ⟨e', he', hepos, hlen⟩
        · exact Or.inl (List.mem_cons_of_mem _ hin)
        · rcases hsplit e' he' with rfl | hre
          · left
            rw [← hepos]
            exact List.mem_cons_self _ _
          · exact Or.inr ⟨e', hrest_out e' hre, hepos, hlen⟩
  · intro h
    rcases List.mem_cons.1 h with h1 | h1
    · exact hng h1.symm
    · exact inv.goal_not_vis h1
  · intro u m hr
    rcases inv.cover u m hr with h | ⟨e', he', k, hrk, hbk⟩
    · exact Or.inl (List.mem_cons_of_mem _ h)
    · rcases hsplit e' he' with rfl | hre
      · rcases astar_walk hexp' hmin' k e'.pos u (List.mem_cons_self _ _) hrk with
          h | ⟨e₂, he₂, k₂, hr₂, hb₂⟩
        · exact Or.inl h
        · refine Or.inr ⟨e₂, he₂, k₂, hr₂, ?_⟩
          have := hb₂ e'.path.length hreach_e
          omega
      · exact Or.inr ⟨e', hrest_out e' hre, k, hrk, hbk⟩
  · intro v hv
    rcases List.mem_cons.1 hv with rfl | hv'
    · cases hpath : e.path with
      | nil =>
        left
        have h1 := hval_e.2
        rw [hpath] at h1
        exact h1.symm
      | cons d ds =>
        right
        have h1 := pathOk_last_inB hval_e.1 (by rw [hpath]; simp)
        rw [hval_e.2] at h1
        exact h1
    · exact inv.vis_sub v hv'
  · rw [hP1]
    simp only [List.length_append]
    have : allDirs.length = 4 := rfl
    omega

/-! ### C1 part 8: A* main theorems and the claim -/

theorem astarAux_shortest (R C : Int) (blocked dangerous : List Pos)
    (start goal : Pos) :
    ∀ (fuel : Nat) (heap : List AEntry) (gs : List (Pos × Nat)) (visited : List Pos)
      (cnt : Nat),
      AInv R C blocked dangerous start goal heap gs visited →
      heap.length + 5 * (R.toNat * C.toNat + 1) ≤ fuel + 5 * visited.length →
      ∀ n, IsShortest R C (blocked ++ dangerous) start goal n →
      (astarAux R C blocked dangerous goal fuel heap gs visited cnt).length = n ∧
        pathOk R C (blocked ++ dangerous) start
          (astarAux R C blocked dangerous goal fuel heap gs visited cnt) = true ∧
        applyPath start (astarAux R C blocked dangerous goal fuel heap gs visited cnt) =
          goal := by
  intro fuel
  induction fuel with
  | zero =>
    intro heap gs visited cnt inv hcount n hsh
    exfalso
    have hcard := visited_card_le inv.vis_nodup inv.vis_sub
    have hh : heap = [] := List.length_eq_zero.1 (by omega)
    subst hh
    rcases inv.cover goal n hsh.1 with h | ⟨e, he, _⟩
    · exact inv.goal_not_vis h
    · cases he
  | succ f ih =>
    intro heap gs visited cnt inv hcount n hsh
    unfold astarAux
    cases hpop : popMin heap with
    | none =>
      exfalso
      have hh := popMin_none hpop
      subst hh
      rcases inv.cover goal n hsh.1 with h | ⟨e, he, _⟩
      · exact inv.goal_not_vis h
      · cases he
    | some pr =>
      rcases pr with ⟨e, rest⟩
      dsimp only
      have hlen1 : 1 ≤ heap.length := by
        rcases (popMin_mem hpop).1 with h
        exact List.length_pos.2 (by rintro rfl; cases h)
      have hlenr : rest.length = heap.length - 1 := by
        rw [(popMin_mem hpop).2]
        exact List.length_erase_of_mem (popMin_mem hpop).1
      by_cases hvis : e.pos ∈ visited
      · rw [if_pos hvis]
        refine ih rest gs visited cnt (aInv_discard inv hpop hvis) ?_ n hsh
        omega
      · rw [if_neg hvis]
        by_cases hgoal : e.pos = goal
        · rw [if_pos hgoal]
          have hval := inv.entries_valid e (popMin_mem hpop).1
          have hopt := astar_pop_optimal inv hpop hvis
          have hle : e.path.length ≤ n := hopt n (hgoal ▸ hsh.1)
          have hge : n ≤ e.path.length :=
            hsh.2 e.path.length ⟨e.path, rfl, hval.1, hgoal ▸ hval.2⟩
          exact ⟨by omega, hval.1, hgoal ▸ hval.2⟩
        · rw [if_neg hgoal]
          rcases aInv_finalize inv hpop hvis hgoal rfl with ⟨inv', hblen⟩
          refine ih _ _ _ _ inv' ?_ n hsh
          simp only [List.length_cons]
          omega

theorem astarAux_unreach (R C : Int) (blocked dangerous : List Pos)
    (start goal : Pos) (hun : Unreach R C (blocked ++ dangerous) start goal) :
    ∀ (fuel : Nat) (heap : List AEntry) (gs : List (Pos × Nat)) (visited : List Pos)
      (cnt : Nat),
      AInv R C blocked dangerous start goal heap gs visited →
      astarAux R C blocked dangerous goal fuel heap gs visited cnt = [] := by
  intro fuel
  induction fuel with
  | zero => intro heap gs visited cnt _; rfl
  | succ f ih =>
    intro heap gs visited cnt inv
    unfold astarAux
    cases hpop : popMin heap with
    | none => rfl
    | some pr =>
      rcases pr with ⟨e, rest⟩
      dsimp only
      by_cases hvis : e.pos ∈ visited
      · rw [if_pos hvis]
        exact ih rest gs visited cnt (aInv_discard inv hpop hvis)
      · rw [if_neg hvis]
        by_cases hgoal : e.pos = goal
        · exfalso
          have hval := inv.entries_valid e (popMin_mem hpop).1
          exact hun e.path.length ⟨e.path, rfl, hval.1, hgoal ▸ hval.2⟩
        · rw [if_neg hgoal]
          rcases aInv_finalize inv hpop hvis hgoal rfl with ⟨inv', _⟩
          exact ih _ _ _ _ inv'

theorem aInv_init (R C : Int) (blocked dangerous : List Pos) (start goal : Pos) :
    AInv R C blocked dangerous start goal
      [⟨mdist start goal, 0, start, []⟩] [(start, 0)] [] := by
  refine
    { entries_valid := ?_
      entries_f := ?_
      entries_g := ?_
      gs_real := ?_
      vis_min := by intro v hv; cases hv
      vis_expanded := by intro v hv; cases hv
      gs_entry := ?_
      goal_not_vis := by intro h; cases h
      cover := ?_
      vis_nodup := List.nodup_nil
      vis_sub := by intro v hv; cases hv }
  · intro e he
    rcases List.mem_singleton.1 he with rfl
    exact ⟨rfl, rfl⟩
  · intro e he
    rcases List.mem_singleton.1 he with rfl
    simp
  · intro e he
    rcases List.mem_singleton.1 he with rfl
    refine ⟨0, ?_, le_refl 0⟩
    simp [List.lookup]
  · intro pos g h
    have hm := mem_of_lookup_eq_some h
    rcases List.mem_singleton.1 hm with heq
    injection heq with h1 h2
    subst h1
    subst h2
    exact reachOk_self _ _ _ _
  · intro pos g h
    have hm := mem_of_lookup_eq_some h
    rcases List.mem_singleton.1 hm with heq
    injection heq with h1 h2
    right
    exact ⟨⟨mdist start goal, 0, start, []⟩, List.mem_singleton.2 rfl, h1.symm,
      by simp [h2]⟩
  · intro u m hr
    right
    exact ⟨⟨mdist start goal, 0, start, []⟩, List.mem_singleton.2 rfl, m, hr, by simp⟩

theorem astar_shortest (R C : Int) (blocked dangerous : List Pos) (start goal : Pos)
    (n : Nat) (h : IsShortest R C (blocked ++ dangerous) start goal n) :
    (astar R C blocked dangerous start goal).length = n ∧
      pathOk R C (blocked ++ dangerous) start (astar R C blocked dangerous start goal) =
        true ∧
      applyPath start (astar R C blocked dangerous start goal) = goal := by
  unfold astar
  exact astarAux_shortest R C blocked dangerous start goal _ _ _ _ _
    (aInv_init R C blocked dangerous start goal) (by simp; omega) n h

theorem astar_unreach (R C : Int) (blocked dangerous : List Pos) (start goal : Pos)
    (h : Unreach R C (blocked ++ dangerous) start goal) :
    astar R C blocked dangerous start goal = [] := by
  unfold astar
  exact astarAux_unreach R C blocked dangerous start goal h _ _ _ _ _
    (aInv_init R C blocked dangerous start goal)

theorem mdist_self (a : Pos) : mdist a a = 0 := by
  unfold mdist
  simp

theorem reachOk_mdist_le {R C : Int} {F : List Pos} {a b : Pos} {m : Nat}
    (h : ReachOk R C F a b m) : mdist a b ≤ m := by
  rcases h with ⟨ds, hlen, _, happ⟩
  have h1 := mdist_path_le b ds a
  rw [hlen, happ, mdist_self] at h1
  omega

/-- C1: search correctness.  For every grid, forbidden-cell set, start and
goal: when the goal is reachable from the start through in-bounds non-forbidden
cells, both `bfs` (of `monster_hunt.py`) and `astar` (of `AStar1.py`, whose
forbidden set is the union of blocked and dangerous cells) return a valid path
to the goal whose length is the true 4-connected graph distance; when the goal
is unreachable both return the empty path. -/
theorem C1_search_correct (R C : Int) (forb blocked dangerous : List Pos)
    (start goal : Pos) (n : Nat) :
    (IsShortest R C forb start goal n →
      (bfs R C forb start goal).length = n ∧
      pathOk R C forb start (bfs R C forb start goal) = true ∧
      applyPath start (bfs R C forb start goal) = goal) ∧
    (Unreach R C forb start goal → bfs R C forb start goal = []) ∧
    (IsShortest R C (blocked ++ dangerous) start goal n →
      (astar R C blocked dangerous start goal).length = n ∧
      pathOk R C (blocked ++ dangerous) start
        (astar R C blocked dangerous start goal) = true ∧
      applyPath start (astar R C blocked dangerous start goal) = goal) ∧
    (Unreach R C (blocked ++ dangerous) start goal →
      astar R C blocked dangerous start goal = []) :=
  ⟨bfs_shortest R C forb start goal n, bfs_unreach R C forb start goal,
   astar_shortest R C blocked dangerous start goal n,
   astar_unreach R C blocked dangerous start goal⟩

/-- C1 (witness): on an empty 2×2 grid the distance from (0,0) to (1,1) is 2
and both searches return length-2 paths; a goal outside a 1×1 grid is
unreachable and both searches return the empty path. -/
theorem C1_search_correct_witness :
    (bfs 2 2 [] ((0:Int), (0:Int)) ((1:Int), (1:Int))).length = 2 ∧
    (astar 2 2 [] [] ((0:Int), (0:Int)) ((1:Int), (1:Int))).length = 2 ∧
    bfs 1 1 [] ((0:Int), (0:Int)) ((1:Int), (0:Int)) = [] ∧
    astar 1 1 [] [] ((0:Int), (0:Int)) ((1:Int), (0:Int)) = [] := by
  have hsh : IsShortest 2 2 [] ((0:Int), (0:Int)) ((1:Int), (1:Int)) 2 := by
    constructor
    · exact ⟨[Dir.S, Dir.E], rfl, by decide, by decide⟩
    · intro m hm
      have h1 := reachOk_mdist_le hm
      have h2 : mdist ((0:Int), (0:Int)) ((1:Int), (1:Int)) = 2 := by decide
      omega
  have hun : Unreach 1 1 [] ((0:Int), (0:Int)) ((1:Int), (0:Int)) := by
    intro n h
    cases n with
    | zero =>
      have := reachOk_zero h
      simp at this
    | succ k =>
      rcases reachOk_succ h with ⟨y, d, _, hok, he⟩
      rw [he] at hok
      exact absurd hok (by decide)
  exact ⟨((C1_search_correct 2 2 [] [] [] _ _ 2).1 hsh).1,
    ((C1_search_correct 2 2 [] [] [] _ _ 2).2.2.1 hsh).1,
    (C1_search_correct 1 1 [] [] [] _ _ 0).2.1 hun,
    (C1_search_correct 1 1 [] [] [] _ _ 0).2.2.2 hun⟩
